/-
  Verification of the TTDB versioned key/value store (TTDB.py, TTDBClient.py).

  The embedding translates the Python source into Lean:
  - `datetime` timestamps become `Nat` (only their total order is used);
  - Python dictionaries become association lists (`Dict`) whose update keeps
    the position of an existing key and appends a new key at the end, matching
    Python dict insertion-order semantics;
  - a bucket `[[ (value, write_stamp), ... ], read_stamp]` becomes `Bucket`;
  - the table stores `Option String` values (`none` is Python's `None`, the
    absent marker written by UNSET), the index stores `Int` counts;
  - stateful methods become functions returning the result together with the
    new state.
-/
import Mathlib

set_option linter.unusedVariables false

/-- One versioned bucket: the entry list `[(value, write_stamp), ...]` plus the
single `read_stamp`, mirroring `[[(value, write_stamp), ...], read_stamp]`. -/
structure Bucket (α : Type) where
  entries : List (α × Nat)
  readStamp : Nat
deriving Repr, DecidableEq

/-- A Python dictionary of buckets, as an association list. -/
abbrev Dict (κ α : Type) := List (κ × Bucket α)

/-- Dictionary lookup (`key in dictionary` / `dictionary[key]`). -/
def dictGet [DecidableEq κ] : Dict κ α → κ → Option (Bucket α)
  | [], _ => none
  | (k', b) :: d, k => if k = k' then some b else dictGet d k

/-- Dictionary assignment `dictionary[key] = bucket`: an existing key keeps its
position, a new key is appended at the end (Python dict insertion order). -/
def dictSet [DecidableEq κ] : Dict κ α → κ → Bucket α → Dict κ α
  | [], k, b => [(k, b)]
  | (k', b') :: d, k, b => if k = k' then (k, b) :: d else (k', b') :: dictSet d k b

/-- The index of the Python loop in `TTDBTable.__insert`: the first position
whose entry has `write_stamp > t`, or the length when no entry does. -/
def insertPos (t : Nat) : List (α × Nat) → Nat
  | [] => 0
  | e :: es => if e.2 > t then 0 else insertPos t es + 1

/-- The scan of `TTDBTable.__read_item`: walk the entries in order, remember
the last one seen, stop at the first entry with `write_stamp > break_time`. -/
def lastLE (t : Nat) : List (α × Nat) → Option (α × Nat)
  | [] => none
  | e :: es => if e.2 > t then none else some ((lastLE t es).getD e)

/-- `TTDBTable.__insert`: time-sorted insert into the bucket at `key`,
creating `[[item], item[1]]` for a missing key; with autopurge the entries
strictly before the insertion point are dropped.  In every case the bucket's
read stamp is set to `item[1]`. -/
def insertItem [DecidableEq κ] (autopurge : Bool) (d : Dict κ α) (key : κ)
    (item : α × Nat) : Dict κ α :=
  match dictGet d key with
  | none => dictSet d key ⟨[item], item.2⟩
  | some b =>
    let i := insertPos item.2 b.entries
    if autopurge then dictSet d key ⟨item :: b.entries.drop i, item.2⟩
    else dictSet d key ⟨b.entries.take i ++ item :: b.entries.drop i, item.2⟩

/-- `TTDBTable.__read_item`: latest entry with `write_stamp ≤ break_time`
(or `none`), overwriting the bucket's read stamp with `break_time` whenever
the key's bucket exists. -/
def readItemSt [DecidableEq κ] (d : Dict κ α) (key : κ) (breakTime : Nat) :
    Option (α × Nat) × Dict κ α :=
  match dictGet d key with
  | none => (none, d)
  | some b => (lastLE breakTime b.entries, dictSet d key ⟨b.entries, breakTime⟩)

/-- `TTDBTable`: table, index, autopurge flag, purge stamp and purge period.
The parent pointer of the source is modelled separately: chains of stores
(`readValueChainSt` and friends) carry the parent stores explicitly. -/
structure TTDBTable where
  table : Dict String (Option String)
  index : Dict String Int
  autopurge : Bool
  purgeStamp : Nat
  purgePeriod : Nat
deriving Repr, DecidableEq

/-- `TTDBTable.__init__` with no parent yields autopurge `false` (the root);
a scope store (parent given, as in `TTDBTable(parent)`) yields autopurge
`true`. -/
def mkTable (autopurge : Bool) (purgePeriod now : Nat) : TTDBTable :=
  ⟨[], [], autopurge, now, purgePeriod⟩

namespace TTDBTable

/-- `TTDBTable.read_value` on a store with no parent: the read result
(`None` on miss, the stored value — itself possibly `None` — on hit), plus
the store with the touched bucket's read stamp overwritten. -/
def readValueRootSt (s : TTDBTable) (key : String) (time : Nat) :
    Option String × TTDBTable :=
  let p := readItemSt s.table key time
  match p.1 with
  | none => (none, { s with table := p.2 })
  | some pair => (pair.1, { s with table := p.2 })

/-- `TTDBTable.read_index` on a store with no parent: the stored count on hit,
`0` on miss, plus the store with the read stamp overwritten. -/
def readIndexRootSt (s : TTDBTable) (value : String) (time : Nat) :
    Int × TTDBTable :=
  let p := readItemSt s.index value time
  match p.1 with
  | none => (0, { s with index := p.2 })
  | some pair => (pair.1, { s with index := p.2 })

/-- The old-value index maintenance step of `TTDBTable.write_value`:
`old_index = self.read_index(old_value, time)` followed by
`self.__insert(self.index, old_value, (old_index - 1, time))`. -/
def decOldIndex (s : TTDBTable) (ov : String) (time : Nat) : TTDBTable :=
  let q := s.readIndexRootSt ov time
  { q.2 with index := insertItem q.2.autopurge q.2.index ov (q.1 - 1, time) }

/-- The new-value index maintenance step of `TTDBTable.write_value`:
`old_index = self.read_index(value, time)` followed by
`self.__insert(self.index, value, (old_index + 1, time))`. -/
def incNewIndex (s : TTDBTable) (v : String) (time : Nat) : TTDBTable :=
  let q := s.readIndexRootSt v time
  { q.2 with index := insertItem q.2.autopurge q.2.index v (q.1 + 1, time) }

/-- `TTDBTable.write_value` on a store with no parent: read the old value,
insert the new `(value, time)` entry, then decrement the old value's index
bucket and increment the new value's index bucket exactly when they exist
and differ, exactly in the source's order (each read also moves read stamps). -/
def writeValueRoot (s : TTDBTable) (key : String) (value : Option String)
    (time : Nat) : TTDBTable :=
  let p := s.readValueRootSt key time
  let old := p.1
  let s2 := { p.2 with table := insertItem p.2.autopurge p.2.table key (value, time) }
  let s3 := match old with
    | some ov => if old ≠ value then decOldIndex s2 ov time else s2
    | none => s2
  match value with
  | some v => if old ≠ value then incNewIndex s3 v time else s3
  | none => s3

end TTDBTable

/-- The apply phase of `TTDBTable.__update`: for every key of the incoming
dictionary, in order, insert every entry of its bucket. -/
def applyInserts [DecidableEq κ] (autopurge : Bool) (dst src : Dict κ α) :
    Dict κ α :=
  src.foldl (fun acc kv =>
    kv.2.entries.foldl (fun a e => insertItem autopurge a kv.1 e) acc) dst

/-- The validation phase of `TTDBTable.__update` over one dictionary: some
incoming key also held by `dst` has `dst`'s bucket read stamp strictly above
the incoming bucket's read stamp field (`self.table[k][1] > v[1]`). -/
def anyConflict [DecidableEq κ] (dst src : Dict κ α) : Bool :=
  src.any (fun kv =>
    match dictGet dst kv.1 with
    | some b => decide (b.readStamp > kv.2.readStamp)
    | none => false)

namespace TTDBTable

/-- `TTDBTable.__update` (the commit merge): validate every key of the
incoming table, then every key of the incoming index; only if both passes
succeed, insert every entry of every incoming bucket. -/
def update (s : TTDBTable) (table : Dict String (Option String))
    (index : Dict String Int) : Bool × TTDBTable :=
  if anyConflict s.table table then (false, s)
  else if anyConflict s.index index then (false, s)
  else
    (true,
      { s with
        table := applyInserts s.autopurge s.table table,
        index := applyInserts s.autopurge s.index index })

/-- The entry retention of `TTDBTable.purge_entries` for a multi-entry list:
keep the entries with `write_stamp > time`; if none survive, keep
`values[-1:]` (the single most recent entry). -/
def purgeBucketEntries (time : Nat) (es : List (α × Nat)) : List (α × Nat) :=
  let out := es.filter (fun e => e.2 > time)
  if out.length > 0 then out else es.drop (es.length - 1)

/-- The per-key table body of `TTDBTable.purge_entries`: keep a single
real-valued entry, delete a single absent-valued entry, else apply
`purgeBucketEntries`. -/
def purgeTableBucket (time : Nat) (kv : String × Bucket (Option String)) :
    Option (String × Bucket (Option String)) :=
  match kv.2.entries with
  | [(some _, _)] => some kv
  | [(none, _)] => none
  | es => some (kv.1, { kv.2 with entries := purgeBucketEntries time es })

/-- The per-key index body of `TTDBTable.purge_entries`: keep a single
positive count, delete any other single entry, transform multi-entry buckets,
and leave an empty bucket untouched. -/
def purgeIndexBucket (time : Nat) (kv : String × Bucket Int) :
    Option (String × Bucket Int) :=
  match kv.2.entries with
  | [(c, _)] => if c > 0 then some kv else none
  | es =>
    if es.length > 1 then
      some (kv.1, { kv.2 with entries := purgeBucketEntries time es })
    else some kv

/-- `TTDBTable.purge_entries`: rate-limited by `now - purge_stamp <
purge_period`; then apply the per-key bodies to every table and index key. -/
def purgeEntries (s : TTDBTable) (time now : Nat) : TTDBTable :=
  if now - s.purgeStamp < s.purgePeriod then s
  else
    { s with
      table := s.table.filterMap (purgeTableBucket time),
      index := s.index.filterMap (purgeIndexBucket time),
      purgeStamp := now }

/-- Pure projection of `read_value` on a parentless store: the value read at
`time`, with miss and stored-`None` both collapsed to `none`, exactly as the
stateful read returns it (read stamps do not influence the result). -/
def readValuePure (s : TTDBTable) (key : String) (time : Nat) : Option String :=
  match dictGet s.table key with
  | none => none
  | some b =>
    match lastLE time b.entries with
    | none => none
    | some pair => pair.1

/-- Pure projection of `read_index` on a parentless store. -/
def readIndexPure (s : TTDBTable) (value : String) (time : Nat) : Int :=
  match dictGet s.index value with
  | none => 0
  | some b =>
    match lastLE time b.entries with
    | none => 0
    | some pair => pair.1

end TTDBTable

/-- Chained `read_value` for a parent chain of stores (deepest first, the
parentless root last): read locally, fall through to the parent on miss; every
visited store's bucket read stamp is overwritten. -/
def readValueChainSt : List TTDBTable → String → Nat →
    Option String × List TTDBTable
  | [], _, _ => (none, [])
  | s :: rest, key, time =>
    let p := readItemSt s.table key time
    match p.1 with
    | some pair => (pair.1, { s with table := p.2 } :: rest)
    | none =>
      let q := readValueChainSt rest key time
      (q.1, { s with table := p.2 } :: q.2)

/-- Chained `read_index`, `0` at the end of the chain. -/
def readIndexChainSt : List TTDBTable → String → Nat → Int × List TTDBTable
  | [], _, _ => (0, [])
  | s :: rest, value, time =>
    let p := readItemSt s.index value time
    match p.1 with
    | some pair => (pair.1, { s with index := p.2 } :: rest)
    | none =>
      let q := readIndexChainSt rest value time
      (q.1, { s with index := p.2 } :: q.2)

/-- Replace the head store of a chain. -/
def chainModHead (f : TTDBTable → TTDBTable) : List TTDBTable → List TTDBTable
  | [] => []
  | s :: rest => f s :: rest

/-- `TTDBTable.write_value` performed by the deepest scope of a chain: the
reads fall through the whole chain (moving read stamps), the inserts go into
the head store. -/
def writeValueChain (chain : List TTDBTable) (key : String)
    (value : Option String) (time : Nat) : List TTDBTable :=
  let p := readValueChainSt chain key time
  let old := p.1
  let c1 := p.2
  let c2 := chainModHead
    (fun s => { s with table := insertItem s.autopurge s.table key (value, time) }) c1
  let c3 := match old with
    | some ov =>
      if old ≠ value then
        let q := readIndexChainSt c2 ov time
        chainModHead
          (fun s => { s with index := insertItem s.autopurge s.index ov (q.1 - 1, time) }) q.2
      else c2
    | none => c2
  match value with
  | some v =>
    if old ≠ value then
      let r := readIndexChainSt c3 v time
      chainModHead
        (fun s => { s with index := insertItem s.autopurge s.index v (r.1 + 1, time) }) r.2
    else c3
  | none => c3

/-- `TTDBTransaction.commit` unrolled over the scope chain (deepest scope
first), committing into the given root store: each scope merges into the next
via `TTDBTable.update`; the first conflict stops the chain and the root is
returned as it was; the outermost scope merges into the root. -/
def commitChain : List TTDBTable → TTDBTable → Bool × TTDBTable
  | [], root => (true, root)
  | [s], root => root.update s.table s.index
  | s :: s2 :: rest, root =>
    let r := s2.update s.table s.index
    if r.1 then commitChain (r.2 :: rest) root else (false, root)
termination_by l _ => l.length
decreasing_by simp

/-- `TTDBTransaction`: the shared timestamp of the whole nest, and the scope
stores from the deepest subtransaction to the outermost scope. -/
structure TTDBTransaction where
  timestamp : Nat
  scopes : List TTDBTable
deriving Repr, DecidableEq

/-- `TTDBTransaction.begin`: push a fresh empty scope store (autopurge true)
as the new deepest scope. -/
def TTDBTransaction.begin (txn : TTDBTransaction) (purgePeriod now : Nat) :
    TTDBTransaction :=
  { txn with scopes := mkTable true purgePeriod now :: txn.scopes }

/-- `TTDBTransaction.set` (and `unset` with `value = none`): delegate to the
deepest scope, writing at the transaction's timestamp; reads fall through to
the root, which is carried as the last chain element and returned updated. -/
def TTDBTransaction.set (txn : TTDBTransaction) (root : TTDBTable)
    (key : String) (value : Option String) : TTDBTransaction × TTDBTable :=
  let chain := writeValueChain (txn.scopes ++ [root]) key value txn.timestamp
  ({ txn with scopes := chain.dropLast }, chain.getLastD root)

/-- `TTDBTransaction.get`: read through the deepest scope at the
transaction's timestamp. -/
def TTDBTransaction.get (txn : TTDBTransaction) (root : TTDBTable)
    (key : String) : Option String × TTDBTransaction × TTDBTable :=
  let p := readValueChainSt (txn.scopes ++ [root]) key txn.timestamp
  (p.1, { txn with scopes := p.2.dropLast }, p.2.getLastD root)

/-- `TTDBTransaction.numequalto`. -/
def TTDBTransaction.numequalto (txn : TTDBTransaction) (root : TTDBTable)
    (value : String) : Int × TTDBTransaction × TTDBTable :=
  let p := readIndexChainSt (txn.scopes ++ [root]) value txn.timestamp
  (p.1, { txn with scopes := p.2.dropLast }, p.2.getLastD root)

/-- `TTDBTransaction.commit`: the scope chain commits deepest-first. -/
def TTDBTransaction.commit (txn : TTDBTransaction) (root : TTDBTable) :
    Bool × TTDBTable :=
  commitChain txn.scopes root

/-- The session table `TTDB.transactions`, keyed by connection. -/
abbrev SessionTable := List (Nat × TTDBTransaction)

/-- `connection in self.transactions` / `self.transactions[connection]`. -/
def sessGet : SessionTable → Nat → Option TTDBTransaction
  | [], _ => none
  | (c, t) :: st, conn => if conn = c then some t else sessGet st conn

/-- `self.transactions[connection] = txn` (existing key keeps its place). -/
def sessSet : SessionTable → Nat → TTDBTransaction → SessionTable
  | [], conn, t => [(conn, t)]
  | (c, t') :: st, conn, t =>
    if conn = c then (c, t) :: st else (c, t') :: sessSet st conn t

/-- `del self.transactions[connection]`; connection keys are unique in every
reachable session table, so removing every matching entry coincides with
Python's single-key delete. -/
def sessDel (st : SessionTable) (conn : Nat) : SessionTable :=
  st.filter (fun p => p.1 ≠ conn)

/-- `min([X.timestamp for X in self.transactions.values()])`; only ever used
on a non-empty table (guarded by `connection in self.transactions`). -/
def minTimestamp : SessionTable → Nat
  | [] => 0
  | (_, t) :: st => st.foldl (fun m p => Nat.min m p.2.timestamp) t.timestamp

/-- The server state: the root store and the session table. -/
structure TTDB where
  ttable : TTDBTable
  transactions : SessionTable
deriving Repr, DecidableEq

namespace TTDB

/-- `TTDB.begin`: nest inside the existing transaction, or open a fresh outer
scope stamped `now`; reply `success`. -/
def begin (db : TTDB) (conn : Nat) (now : Nat) : List String × TTDB :=
  match sessGet db.transactions conn with
  | some txn =>
    (["success"],
      { db with transactions :=
          sessSet db.transactions conn (txn.begin db.ttable.purgePeriod now) })
  | none =>
    (["success"],
      { db with transactions :=
          db.transactions ++ [(conn, ⟨now, [mkTable true db.ttable.purgePeriod now]⟩)] })

/-- `TTDB.commit`: a session whose timestamp exceeds the minimum is aborted
and its scope discarded; otherwise the scope chain commits into the root and
the scope is discarded whatever the outcome. -/
def commit (db : TTDB) (conn : Nat) : List String × TTDB :=
  match sessGet db.transactions conn with
  | some txn =>
    if txn.timestamp > minTimestamp db.transactions then
      (["Conflicting lock. Aborting transaction."],
        { db with transactions := sessDel db.transactions conn })
    else
      let r := txn.commit db.ttable
      (if r.1 then ["success"] else ["Commit failed. Rolling back."],
        { ttable := r.2, transactions := sessDel db.transactions conn })
  | none => (["No transaction to commit."], db)

/-- `TTDB.set`: in-transaction sets delegate to the transaction; with no
transaction but another live one the write is refused — and, as in the
source, the trailing `sendall('success')` runs on every path, so the refusal
is followed by a second reply. -/
def set (db : TTDB) (conn : Nat) (variable_ value : String) (now : Nat) :
    List String × TTDB :=
  match sessGet db.transactions conn with
  | some txn =>
    let p := txn.set db.ttable variable_ (some value)
    (["success"],
      { ttable := p.2, transactions := sessSet db.transactions conn p.1 })
  | none =>
    if db.transactions.length > 0 then
      (["Conflicting lock. Aborting write.", "success"], db)
    else
      (["success"], { db with ttable := db.ttable.writeValueRoot variable_ (some value) now })

/-- `TTDB.unset`: same shape as `set` with the absent marker, abort message
`Aborting write.`, and the same trailing `success`. -/
def unset (db : TTDB) (conn : Nat) (variable_ : String) (now : Nat) :
    List String × TTDB :=
  match sessGet db.transactions conn with
  | some txn =>
    let p := txn.set db.ttable variable_ none
    (["success"],
      { ttable := p.2, transactions := sessSet db.transactions conn p.1 })
  | none =>
    if db.transactions.length > 0 then
      (["Aborting write.", "success"], db)
    else
      (["success"], { db with ttable := db.ttable.writeValueRoot variable_ none now })

/-- `TTDB.get`: route through the transaction at its timestamp, or read the
root at the current time; `None` prints as `NULL`. -/
def get (db : TTDB) (conn : Nat) (variable_ : String) (now : Nat) :
    List String × TTDB :=
  match sessGet db.transactions conn with
  | some txn =>
    let p := txn.get db.ttable variable_
    ([(p.1.getD "NULL")],
      { ttable := p.2.2, transactions := sessSet db.transactions conn p.2.1 })
  | none =>
    let p := db.ttable.readValueRootSt variable_ now
    ([(p.1.getD "NULL")], { db with ttable := p.2 })

/-- `TTDB.numequalto`. -/
def numequalto (db : TTDB) (conn : Nat) (value : String) (now : Nat) :
    List String × TTDB :=
  match sessGet db.transactions conn with
  | some txn =>
    let p := txn.numequalto db.ttable value
    ([toString p.1],
      { ttable := p.2.2, transactions := sessSet db.transactions conn p.2.1 })
  | none =>
    let p := db.ttable.readIndexRootSt value now
    ([toString p.1], { db with ttable := p.2 })

end TTDB

/-- The verbs the server dispatch loop in `TTDB.run` recognises, with their
exact arity checks. -/
inductive Command where
  | setCmd (k v : String)
  | getCmd (k : String)
  | unsetCmd (k : String)
  | numequaltoCmd (v : String)
  | beginCmd
  | rollbackCmd
  | commitCmd
  | resetCmd
  | debugCmd
deriving Repr, DecidableEq

/-- The `elif` chain of `TTDB.run` over one whitespace-split datum: a datum
matching no arm is silently dropped (no reply, no state change). -/
def parseDatum (datum : List String) : Option Command :=
  match datum with
  | [w, a, b] => if w = "SET" then some (.setCmd a b) else none
  | [w, a] =>
    if w = "GET" then some (.getCmd a)
    else if w = "UNSET" then some (.unsetCmd a)
    else if w = "NUMEQUALTO" then some (.numequaltoCmd a)
    else none
  | [w] =>
    if w = "BEGIN" then some .beginCmd
    else if w = "ROLLBACK" then some .rollbackCmd
    else if w = "COMMIT" then some .commitCmd
    else if w = "RESET" then some .resetCmd
    else if w = "DEBUG" then some .debugCmd
    else none
  | _ => none

/-- What `TTDBClient.do_begin` sends for each transaction type: both the bare
`BEGIN` line (which the client maps to type `RW`) and explicit `BEGIN RW` /
`BEGIN RO` lines produce a two-token command on the wire. -/
def clientBeginTokens (transactionType : String) : List String :=
  if transactionType = "RW" then ["BEGIN", "RW"]
  else if transactionType = "RO" then ["BEGIN", "RO"]
  else []

/-- The keys of a dictionary, in order. -/
def keysOf (d : Dict κ α) : List κ := d.map Prod.fst

/-- The entry list of the bucket at `k`, if any. -/
def entriesAt [DecidableEq κ] (d : Dict κ α) (k : κ) : Option (List (α × Nat)) :=
  (dictGet d k).map Bucket.entries

/-- All write stamps of the entry list are at most `c`. -/
def EntriesLE (c : Nat) (es : List (α × Nat)) : Prop := ∀ e ∈ es, e.2 ≤ c

/-- The entry list is strictly ascending in write stamp. -/
def EntriesSorted (es : List (α × Nat)) : Prop :=
  es.Pairwise (fun a b => a.2 < b.2)

/-- Every bucket of the dictionary has all write stamps at most `c`. -/
def DictLE (c : Nat) (d : Dict κ α) : Prop :=
  ∀ kv ∈ d, EntriesLE c kv.2.entries

/-- Every bucket of the dictionary is strictly ascending in write stamp. -/
def DictSorted (d : Dict κ α) : Prop :=
  ∀ kv ∈ d, EntriesSorted kv.2.entries

/-- Well-formed dictionary at clock `c`: keys are duplicate-free, every
bucket is strictly ascending with all write stamps at most `c`. -/
def DictWF (c : Nat) (d : Dict κ α) : Prop :=
  (keysOf d).Nodup ∧ DictSorted d ∧ DictLE c d

/-- Well-formed store at clock `c`. -/
def StoreWF (s : TTDBTable) (c : Nat) : Prop :=
  DictWF c s.table ∧ DictWF c s.index

/-- The bucket shape produced inside a transaction scope stamped `T`: every
operation of the scope inserts at the scope's fixed timestamp with autopurge,
so every bucket is a single entry stamped `T`. -/
def ScopeDict (T : Nat) (d : Dict κ α) : Prop :=
  (keysOf d).Nodup ∧ ∀ kv ∈ d, ∃ x, kv.2.entries = [(x, T)]

/-- A transaction scope's store stamped `T`. -/
def ScopeStore (T : Nat) (s : TTDBTable) : Prop :=
  s.autopurge = true ∧ ScopeDict T s.table ∧ ScopeDict T s.index

/-- The value a scope dictionary holds for `k` (the single entry's value). -/
def scopeValD (d : Dict String (Option String)) (k : String) : Option (Option String) :=
  match dictGet d k with
  | none => none
  | some b => b.entries.head?.map Prod.fst

/-- The value a scope store holds for `k` (the single entry of its bucket). -/
def scopeVal (s : TTDBTable) (k : String) : Option (Option String) :=
  scopeValD s.table k

/-- The value a whole scope chain (deepest first) holds for `k`: the value of
the deepest scope that wrote `k`. -/
def chainVal : List TTDBTable → String → Option (Option String)
  | [], _ => none
  | s :: rest, k =>
    match scopeVal s k with
    | some x => some x
    | none => chainVal rest k

/-- The latest write stamp of a bucket (the stamp of its last entry). -/
def latestWriteStamp (b : Bucket α) : Option Nat :=
  b.entries.getLast?.map Prod.snd

/-- A history of direct root writes: `(key, value, stamp)` triples applied by
`TTDBTable.write_value` in order. -/
def applyWrites (s : TTDBTable) : List (String × Option String × Nat) → TTDBTable
  | [] => s
  | (k, v, t) :: ws => applyWrites (s.writeValueRoot k v t) ws

/-- The stamps of a write history are strictly increasing, starting strictly
above `c` (timestamps are minted monotonically during one process lifetime). -/
def StampsChain (c : Nat) : List (String × Option String × Nat) → Prop
  | [] => True
  | (_, _, t) :: ws => c < t ∧ StampsChain t ws

/-- The pure value read `read_value` performs over a single bucket
dictionary: the latest entry with write stamp at most `u`, its stored value
(`None` collapsed with a miss). -/
def readVal (d : Dict String (Option String)) (k : String) (u : Nat) :
    Option String :=
  match dictGet d k with
  | none => none
  | some b =>
    match lastLE u b.entries with
    | none => none
    | some pair => pair.1

/-- The keys whose stored value reads as `v` at time `t`. -/
def keysWithValue (s : TTDBTable) (v : String) (t : Nat) : List String :=
  (keysOf s.table).filter (fun k => decide (s.readValuePure k t = some v))

/-- The number of keys whose stored value reads as `v` at time `t`. -/
def countKeys (s : TTDBTable) (v : String) (t : Nat) : Nat :=
  (keysWithValue s v t).length

/-- The inductive invariant of a root store under direct writes at clock `c`:
root mode (no autopurge), duplicate-free keys, all write stamps at most `c`,
and the value-frequency index counting exactly the keys holding each value at
every timestamp. -/
def RootInv (s : TTDBTable) (c : Nat) : Prop :=
  s.autopurge = false ∧
  (keysOf s.table).Nodup ∧ (keysOf s.index).Nodup ∧
  DictLE c s.table ∧ DictLE c s.index ∧
  ∀ v t, s.readIndexPure v t = (countKeys s v t : Int)

/-- The root stores reachable by engine operations, paired with the clock
bounding every write stamp in the store.  The side conditions `c < t` and
`c < T` are exactly the spec's reliance on strictly monotonic timestamp
minting: a direct write's stamp and a committing transaction's timestamp are
minted after everything already in the root.  Committed transaction contents
are scope-shaped (`ScopeStore`), as every scope store built by scope
operations is. -/
inductive RootReach : TTDBTable → Nat → Prop where
  | init (pp n0 : Nat) : RootReach (mkTable false pp n0) 0
  | write (s : TTDBTable) (c : Nat) (k : String) (v : Option String) (t : Nat)
      (h : RootReach s c) (hf : c < t) : RootReach (s.writeValueRoot k v t) t
  | readV (s : TTDBTable) (c : Nat) (k : String) (t : Nat)
      (h : RootReach s c) : RootReach (s.readValueRootSt k t).2 c
  | readI (s : TTDBTable) (c : Nat) (v : String) (t : Nat)
      (h : RootReach s c) : RootReach (s.readIndexRootSt v t).2 c
  | commit (s : TTDBTable) (c T : Nat) (scopes : List TTDBTable)
      (h : RootReach s c) (hT : c < T) (hs : ∀ x ∈ scopes, ScopeStore T x) :
      RootReach (commitChain scopes s).2 T
  | purge (s : TTDBTable) (c t now : Nat)
      (h : RootReach s c) : RootReach (s.purgeEntries t now) c
  | reset (s : TTDBTable) (c pp n0 : Nat)
      (h : RootReach s c) : RootReach (mkTable false pp n0) c

/-! ### Dictionary lemmas -/

theorem dictGet_dictSet_self [DecidableEq κ] (d : Dict κ α) (k : κ) (b : Bucket α) :
    dictGet (dictSet d k b) k = some b := by
  induction d with
  | nil => simp [dictSet, dictGet]
  | cons hd tl ih =>
    by_cases h : k = hd.1
    · simp [dictSet, dictGet, h]
    · simpa [dictSet, dictGet, h] using ih

theorem dictGet_dictSet_ne [DecidableEq κ] {k' k : κ} (d : Dict κ α) (b : Bucket α)
    (h : k' ≠ k) : dictGet (dictSet d k b) k' = dictGet d k' := by
  induction d with
  | nil => simp [dictSet, dictGet, h]
  | cons hd tl ih =>
    by_cases hk : k = hd.1
    · subst hk
      simp [dictSet, dictGet, h]
    · by_cases hk' : k' = hd.1
      · simp [dictSet, dictGet, hk, hk']
      · simpa [dictSet, dictGet, hk, hk'] using ih

theorem dictSet_absent [DecidableEq κ] {d : Dict κ α} {k : κ}
    (h : dictGet d k = none) (b : Bucket α) : dictSet d k b = d ++ [(k, b)] := by
  induction d with
  | nil => simp [dictSet]
  | cons hd tl ih =>
    by_cases hk : k = hd.1
    · simp [dictGet, hk] at h
    · simp only [dictGet, if_neg hk] at h
      simp [dictSet, hk, ih h]

theorem keysOf_dictSet_present [DecidableEq κ] {d : Dict κ α} {k : κ} {b0 : Bucket α}
    (h : dictGet d k = some b0) (b : Bucket α) :
    keysOf (dictSet d k b) = keysOf d := by
  induction d with
  | nil => simp [dictGet] at h
  | cons hd tl ih =>
    by_cases hk : k = hd.1
    · simp [dictSet, keysOf, hk]
    · simp only [dictGet, if_neg hk] at h
      simpa [dictSet, keysOf, hk] using ih h

theorem dictGet_eq_none_iff [DecidableEq κ] {d : Dict κ α} {k : κ} :
    dictGet d k = none ↔ k ∉ keysOf d := by
  induction d with
  | nil => simp [dictGet, keysOf]
  | cons hd tl ih =>
    by_cases hk : k = hd.1
    · simp [dictGet, keysOf, hk]
    · simp [dictGet, keysOf, hk, ih]

theorem dictGet_mem [DecidableEq κ] {d : Dict κ α} {k : κ} {b : Bucket α}
    (h : dictGet d k = some b) : (k, b) ∈ d := by
  induction d with
  | nil => simp [dictGet] at h
  | cons hd tl ih =>
    obtain ⟨k1, b1⟩ := hd
    by_cases hk : k = k1
    · subst hk
      have hb : b1 = b := by simpa [dictGet] using h
      subst hb
      exact List.mem_cons_self _ _
    · simp only [dictGet, if_neg hk] at h
      exact List.mem_cons_of_mem _ (ih h)

theorem mem_dictGet_of_nodup [DecidableEq κ] {d : Dict κ α} {k : κ} {b : Bucket α}
    (hnd : (keysOf d).Nodup) (h : (k, b) ∈ d) : dictGet d k = some b := by
  induction d with
  | nil => simp at h
  | cons hd tl ih =>
    obtain ⟨k1, b1⟩ := hd
    simp only [keysOf, List.map_cons, List.nodup_cons] at hnd
    rcases List.mem_cons.mp h with h1 | h1
    · rw [Prod.mk.injEq] at h1
      rw [h1.1, h1.2]
      simp [dictGet]
    · have hk : k ≠ k1 := by
        rintro rfl
        exact hnd.1 (List.mem_map.mpr ⟨(k, b), h1, rfl⟩)
      simp only [dictGet, if_neg hk]
      exact ih hnd.2 h1

/-! ### Scan lemmas -/

theorem lastLE_all_le {es : List (α × Nat)} {c t : Nat}
    (h : EntriesLE c es) (hct : c ≤ t) : lastLE t es = es.getLast? := by
  induction es with
  | nil => rfl
  | cons e es ih =>
    have he : e.2 ≤ t := le_trans (h e (List.mem_cons_self _ _)) hct
    have hrest : EntriesLE c es := fun x hx => h x (List.mem_cons_of_mem _ hx)
    simp only [lastLE, if_neg (by omega : ¬ e.2 > t), ih hrest]
    cases es with
    | nil => simp
    | cons f fs =>
      cases hg : (f :: fs).getLast? with
      | none => exact absurd (List.getLast?_eq_none_iff.mp hg) (by simp)
      | some x => simp [List.getLast?_cons_cons, hg]

theorem lastLE_append_single {es : List (α × Nat)} {c t2 : Nat} (v : α)
    (h : EntriesLE c es) (hc : c < t2) (t : Nat) :
    lastLE t (es ++ [(v, t2)]) = if t2 ≤ t then some (v, t2) else lastLE t es := by
  induction es with
  | nil =>
    simp only [List.nil_append, lastLE]
    by_cases ht : t2 ≤ t
    · simp [if_pos ht, if_neg (by omega : ¬ t2 > t)]
    · simp [if_neg ht, if_pos (by omega : t2 > t)]
  | cons e es ih =>
    have hrest : EntriesLE c es := fun x hx => h x (List.mem_cons_of_mem _ hx)
    have he : e.2 ≤ c := h e (List.mem_cons_self _ _)
    by_cases het : e.2 > t
    · have ht : ¬ t2 ≤ t := by omega
      simp [List.cons_append, lastLE, if_pos het, if_neg ht]
    · simp only [List.cons_append, List.append_eq, lastLE, if_neg het, ih hrest]
      by_cases ht : t2 ≤ t
      · simp [if_pos ht]
      · simp [if_neg ht, lastLE, if_neg het]

theorem insertPos_all_le {es : List (α × Nat)} {c t2 : Nat}
    (h : EntriesLE c es) (hc : c < t2) : insertPos t2 es = es.length := by
  induction es with
  | nil => rfl
  | cons e es ih =>
    have he : e.2 ≤ c := h e (List.mem_cons_self _ _)
    have hrest : EntriesLE c es := fun x hx => h x (List.mem_cons_of_mem _ hx)
    simp [insertPos, if_neg (by omega : ¬ e.2 > t2), ih hrest]

/-! ### Insert and read characterisations -/

theorem entriesAt_of_DictLE [DecidableEq κ] {d : Dict κ α} {c : Nat}
    (h : DictLE c d) {k : κ} {es : List (α × Nat)}
    (he : entriesAt d k = some es) : EntriesLE c es := by
  cases hg : dictGet d k with
  | none => rw [entriesAt, hg] at he; cases he
  | some b =>
    rw [entriesAt, hg] at he
    simp only [Option.map_some', Option.some.injEq] at he
    exact he ▸ h (k, b) (dictGet_mem hg)

theorem entriesAt_of_DictSorted [DecidableEq κ] {d : Dict κ α}
    (h : DictSorted d) {k : κ} {es : List (α × Nat)}
    (he : entriesAt d k = some es) : EntriesSorted es := by
  cases hg : dictGet d k with
  | none => rw [entriesAt, hg] at he; cases he
  | some b =>
    rw [entriesAt, hg] at he
    simp only [Option.map_some', Option.some.injEq] at he
    exact he ▸ h (k, b) (dictGet_mem hg)

theorem insertItem_absent [DecidableEq κ] {d : Dict κ α} {k : κ}
    (h : dictGet d k = none) (ap : Bool) (item : α × Nat) :
    insertItem ap d k item = d ++ [(k, ⟨[item], item.2⟩)] := by
  unfold insertItem
  rw [h, dictSet_absent h]

theorem dictGet_insertItem_ne [DecidableEq κ] {k' k : κ} (d : Dict κ α)
    (ap : Bool) (item : α × Nat) (h : k' ≠ k) :
    dictGet (insertItem ap d k item) k' = dictGet d k' := by
  unfold insertItem
  cases hg : dictGet d k with
  | none => rw [dictGet_dictSet_ne _ _ h]
  | some b =>
    by_cases hap : ap <;> simp only [hap, if_pos, if_neg, Bool.false_eq_true,
      if_false, if_true] <;> rw [dictGet_dictSet_ne _ _ h]

theorem insertItem_present_fresh [DecidableEq κ] {d : Dict κ α} {k : κ}
    {b : Bucket α} {c t : Nat} (h : dictGet d k = some b)
    (hle : EntriesLE c b.entries) (hc : c < t) (v : α) :
    insertItem false d k (v, t) = dictSet d k ⟨b.entries ++ [(v, t)], t⟩ := by
  unfold insertItem
  rw [h]
  simp only [Bool.false_eq_true, if_false]
  rw [insertPos_all_le hle hc]
  simp

theorem insertItem_scope [DecidableEq κ] {d : Dict κ α} {k : κ}
    {b : Bucket α} {y : α} {T : Nat} (h : dictGet d k = some b)
    (hb : b.entries = [(y, T)]) (x : α) :
    insertItem true d k (x, T) = dictSet d k ⟨[(x, T)], T⟩ := by
  unfold insertItem
  rw [h]
  simp [hb, insertPos]

theorem keysOf_insertItem_present [DecidableEq κ] {d : Dict κ α} {k : κ}
    {b : Bucket α} (h : dictGet d k = some b) (ap : Bool) (item : α × Nat) :
    keysOf (insertItem ap d k item) = keysOf d := by
  unfold insertItem
  rw [h]
  by_cases hap : ap <;> simp only [hap, Bool.false_eq_true, if_false, if_true] <;>
    exact keysOf_dictSet_present h _

theorem readItemSt_fst [DecidableEq κ] (d : Dict κ α) (k : κ) (t : Nat) :
    (readItemSt d k t).1 =
      match dictGet d k with
      | none => none
      | some b => lastLE t b.entries := by
  unfold readItemSt
  cases dictGet d k <;> rfl

theorem readItemSt_snd_entriesAt [DecidableEq κ] (d : Dict κ α) (k : κ) (t : Nat)
    (k' : κ) : entriesAt (readItemSt d k t).2 k' = entriesAt d k' := by
  unfold readItemSt
  cases hg : dictGet d k with
  | none => rfl
  | some b =>
    by_cases hk : k' = k
    · subst hk
      simp only [entriesAt, dictGet_dictSet_self, hg]
      rfl
    · simp only [entriesAt, dictGet_dictSet_ne _ _ hk]

theorem readItemSt_snd_keys [DecidableEq κ] (d : Dict κ α) (k : κ) (t : Nat) :
    keysOf (readItemSt d k t).2 = keysOf d := by
  unfold readItemSt
  cases hg : dictGet d k with
  | none => rfl
  | some b => exact keysOf_dictSet_present hg _

theorem readItemSt_snd_readStamp [DecidableEq κ] {d : Dict κ α} {k : κ}
    {b : Bucket α} (h : dictGet d k = some b) (t : Nat) :
    dictGet (readItemSt d k t).2 k = some ⟨b.entries, t⟩ := by
  unfold readItemSt
  rw [h]
  exact dictGet_dictSet_self _ _ _

/-! ### Store-level read lemmas -/

theorem readValueRootSt_snd (s : TTDBTable) (k : String) (t : Nat) :
    (s.readValueRootSt k t).2 = { s with table := (readItemSt s.table k t).2 } := by
  unfold TTDBTable.readValueRootSt
  rcases hp : readItemSt s.table k t with ⟨r, d2⟩
  cases r <;> simp [hp]

theorem readValueRootSt_fst (s : TTDBTable) (k : String) (t : Nat) :
    (s.readValueRootSt k t).1 = s.readValuePure k t := by
  unfold TTDBTable.readValueRootSt TTDBTable.readValuePure readItemSt
  cases hg : dictGet s.table k with
  | none => simp [hg]
  | some b => cases hl : lastLE t b.entries <;> simp [hg, hl]

theorem readIndexRootSt_snd (s : TTDBTable) (v : String) (t : Nat) :
    (s.readIndexRootSt v t).2 = { s with index := (readItemSt s.index v t).2 } := by
  unfold TTDBTable.readIndexRootSt
  rcases hp : readItemSt s.index v t with ⟨r, d2⟩
  cases r <;> simp [hp]

theorem readIndexRootSt_fst (s : TTDBTable) (v : String) (t : Nat) :
    (s.readIndexRootSt v t).1 = s.readIndexPure v t := by
  unfold TTDBTable.readIndexRootSt TTDBTable.readIndexPure readItemSt
  cases hg : dictGet s.index v with
  | none => simp [hg]
  | some b => cases hl : lastLE t b.entries <;> simp [hg, hl]

theorem dictGet_append_of_none [DecidableEq κ] {d : Dict κ α} {k : κ}
    (h : dictGet d k = none) (d2 : Dict κ α) :
    dictGet (d ++ d2) k = dictGet d2 k := by
  induction d with
  | nil => rfl
  | cons hd tl ih =>
    by_cases hk : k = hd.1
    · simp [dictGet, hk] at h
    · simp only [dictGet, if_neg hk] at h
      simpa [dictGet, hk] using ih h

theorem readItemSt_snd_absent [DecidableEq κ] {d : Dict κ α} {k : κ}
    (h : dictGet d k = none) (t : Nat) : (readItemSt d k t).2 = d := by
  unfold readItemSt
  rw [h]

theorem keysOf_insertItem [DecidableEq κ] (ap : Bool) (d : Dict κ α) (k : κ)
    (item : α × Nat) :
    keysOf (insertItem ap d k item) =
      if (dictGet d k).isSome then keysOf d else keysOf d ++ [k] := by
  cases hg : dictGet d k with
  | none => simp [insertItem_absent hg, keysOf]
  | some b => simp [keysOf_insertItem_present hg]

theorem entriesAt_isSome_iff [DecidableEq κ] (d : Dict κ α) (k : κ) :
    (entriesAt d k).isSome = (dictGet d k).isSome := by
  unfold entriesAt
  cases dictGet d k <;> rfl

/-! ### Read-then-insert at a fresh stamp -/

theorem insertAfterRead_self [DecidableEq κ] {d : Dict κ α} {c t : Nat}
    (hc : c < t) (k : κ)
    (hb : ∀ es, entriesAt d k = some es → EntriesLE c es) (v : α) :
    entriesAt (insertItem false (readItemSt d k t).2 k (v, t)) k
      = some ((entriesAt d k).getD [] ++ [(v, t)]) := by
  cases hg : dictGet d k with
  | none =>
    rw [readItemSt_snd_absent hg, insertItem_absent hg]
    rw [entriesAt, dictGet_append_of_none hg]
    simp [dictGet, entriesAt, hg]
  | some b =>
    have hstamp : dictGet (readItemSt d k t).2 k = some ⟨b.entries, t⟩ :=
      readItemSt_snd_readStamp hg t
    have hle : EntriesLE c b.entries := hb b.entries (by rw [entriesAt, hg]; rfl)
    rw [insertItem_present_fresh hstamp hle hc]
    rw [entriesAt, dictGet_dictSet_self]
    simp [entriesAt, hg]

theorem insertAfterRead_ne [DecidableEq κ] (ap : Bool) (d : Dict κ α)
    (k : κ) (item : α × Nat) (t : Nat) {k' : κ} (h : k' ≠ k) :
    entriesAt (insertItem ap (readItemSt d k t).2 k item) k' = entriesAt d k' := by
  rw [entriesAt, dictGet_insertItem_ne _ _ _ h]
  rw [← entriesAt, readItemSt_snd_entriesAt]

theorem insertAfterRead_keys [DecidableEq κ] (ap : Bool) (d : Dict κ α)
    (k : κ) (item : α × Nat) (t : Nat) :
    keysOf (insertItem ap (readItemSt d k t).2 k item) =
      if (dictGet d k).isSome then keysOf d else keysOf d ++ [k] := by
  rw [keysOf_insertItem, readItemSt_snd_keys]
  cases hg : dictGet d k with
  | none => rw [readItemSt_snd_absent hg, hg]
  | some b => simp [readItemSt_snd_readStamp hg, hg]

/-! ### Index maintenance steps -/

theorem decOldIndex_eq (s : TTDBTable) (ov : String) (t : Nat) :
    TTDBTable.decOldIndex s ov t =
      { s with index := insertItem s.autopurge (readItemSt s.index ov t).2 ov (s.readIndexPure ov t - 1, t) } := by
  simp only [TTDBTable.decOldIndex, readIndexRootSt_snd, readIndexRootSt_fst]

theorem incNewIndex_eq (s : TTDBTable) (v : String) (t : Nat) :
    TTDBTable.incNewIndex s v t =
      { s with index := insertItem s.autopurge (readItemSt s.index v t).2 v (s.readIndexPure v t + 1, t) } := by
  simp only [TTDBTable.incNewIndex, readIndexRootSt_snd, readIndexRootSt_fst]

theorem decOldIndex_table (s : TTDBTable) (ov : String) (t : Nat) :
    (TTDBTable.decOldIndex s ov t).table = s.table := by
  rw [decOldIndex_eq]

theorem incNewIndex_table (s : TTDBTable) (v : String) (t : Nat) :
    (TTDBTable.incNewIndex s v t).table = s.table := by
  rw [incNewIndex_eq]

theorem decOldIndex_index_self {s : TTDBTable} (hap : s.autopurge = false)
    {c t : Nat} (hc : c < t) (ov : String)
    (hb : ∀ es, entriesAt s.index ov = some es → EntriesLE c es) :
    entriesAt (TTDBTable.decOldIndex s ov t).index ov
      = some ((entriesAt s.index ov).getD [] ++ [(s.readIndexPure ov t - 1, t)]) := by
  rw [decOldIndex_eq, hap]
  exact insertAfterRead_self hc ov hb _

theorem incNewIndex_index_self {s : TTDBTable} (hap : s.autopurge = false)
    {c t : Nat} (hc : c < t) (v : String)
    (hb : ∀ es, entriesAt s.index v = some es → EntriesLE c es) :
    entriesAt (TTDBTable.incNewIndex s v t).index v
      = some ((entriesAt s.index v).getD [] ++ [(s.readIndexPure v t + 1, t)]) := by
  rw [incNewIndex_eq, hap]
  exact insertAfterRead_self hc v hb _

theorem decOldIndex_index_ne (s : TTDBTable) (ov : String) (t : Nat)
    {w : String} (h : w ≠ ov) :
    entriesAt (TTDBTable.decOldIndex s ov t).index w = entriesAt s.index w := by
  rw [decOldIndex_eq]
  exact insertAfterRead_ne _ _ _ _ _ h

theorem incNewIndex_index_ne (s : TTDBTable) (v : String) (t : Nat)
    {w : String} (h : w ≠ v) :
    entriesAt (TTDBTable.incNewIndex s v t).index w = entriesAt s.index w := by
  rw [incNewIndex_eq]
  exact insertAfterRead_ne _ _ _ _ _ h

theorem decOldIndex_index_keys (s : TTDBTable) (ov : String) (t : Nat) :
    keysOf (TTDBTable.decOldIndex s ov t).index =
      if (dictGet s.index ov).isSome then keysOf s.index
      else keysOf s.index ++ [ov] := by
  rw [decOldIndex_eq]
  exact insertAfterRead_keys _ _ _ _ _

theorem incNewIndex_index_keys (s : TTDBTable) (v : String) (t : Nat) :
    keysOf (TTDBTable.incNewIndex s v t).index =
      if (dictGet s.index v).isSome then keysOf s.index
      else keysOf s.index ++ [v] := by
  rw [incNewIndex_eq]
  exact insertAfterRead_keys _ _ _ _ _

/-! ### Reads from entry characterisations -/

theorem readValuePure_eq_of_entriesAt {s : TTDBTable} {k : String}
    {es : List (Option String × Nat)} (h : entriesAt s.table k = some es) (t : Nat) :
    s.readValuePure k t =
      match lastLE t es with
      | none => none
      | some pair => pair.1 := by
  unfold TTDBTable.readValuePure
  cases hg : dictGet s.table k with
  | none => rw [entriesAt, hg] at h; cases h
  | some b =>
    rw [entriesAt, hg] at h
    simp only [Option.map_some', Option.some.injEq] at h
    simp [h]

theorem readValuePure_eq_none_of_absent {s : TTDBTable} {k : String}
    (h : entriesAt s.table k = none) (t : Nat) : s.readValuePure k t = none := by
  unfold TTDBTable.readValuePure
  cases hg : dictGet s.table k with
  | none => rfl
  | some b => rw [entriesAt, hg] at h; cases h

theorem readIndexPure_eq_of_entriesAt {s : TTDBTable} {v : String}
    {es : List (Int × Nat)} (h : entriesAt s.index v = some es) (t : Nat) :
    s.readIndexPure v t =
      match lastLE t es with
      | none => 0
      | some pair => pair.1 := by
  unfold TTDBTable.readIndexPure
  cases hg : dictGet s.index v with
  | none => rw [entriesAt, hg] at h; cases h
  | some b =>
    rw [entriesAt, hg] at h
    simp only [Option.map_some', Option.some.injEq] at h
    simp [h]

theorem readIndexPure_eq_zero_of_absent {s : TTDBTable} {v : String}
    (h : entriesAt s.index v = none) (t : Nat) : s.readIndexPure v t = 0 := by
  unfold TTDBTable.readIndexPure
  cases hg : dictGet s.index v with
  | none => rfl
  | some b => rw [entriesAt, hg] at h; cases h

theorem readValuePure_congr {s s2 : TTDBTable} {k : String}
    (h : entriesAt s.table k = entriesAt s2.table k) (t : Nat) :
    s.readValuePure k t = s2.readValuePure k t := by
  unfold TTDBTable.readValuePure
  simp only [entriesAt] at h
  cases hg : dictGet s.table k with
  | none =>
    cases hg2 : dictGet s2.table k with
    | none => rfl
    | some b2 => rw [hg, hg2] at h; cases h
  | some b =>
    cases hg2 : dictGet s2.table k with
    | none => rw [hg, hg2] at h; cases h
    | some b2 =>
      rw [hg, hg2] at h
      simp only [Option.map_some', Option.some.injEq] at h
      simp [h]

theorem readIndexPure_congr {s s2 : TTDBTable} {v : String}
    (h : entriesAt s.index v = entriesAt s2.index v) (t : Nat) :
    s.readIndexPure v t = s2.readIndexPure v t := by
  unfold TTDBTable.readIndexPure
  simp only [entriesAt] at h
  cases hg : dictGet s.index v with
  | none =>
    cases hg2 : dictGet s2.index v with
    | none => rfl
    | some b2 => rw [hg, hg2] at h; cases h
  | some b =>
    cases hg2 : dictGet s2.index v with
    | none => rw [hg, hg2] at h; cases h
    | some b2 =>
      rw [hg, hg2] at h
      simp only [Option.map_some', Option.some.injEq] at h
      simp [h]

theorem writeValueRoot_cases (s : TTDBTable) (k : String) (v : Option String) (t : Nat) :
    s.writeValueRoot k v t =
      (let s2 : TTDBTable := { s with table := insertItem s.autopurge (readItemSt s.table k t).2 k (v, t) }
       match s.readValuePure k t, v with
       | some ov, some vv => if ov ≠ vv then TTDBTable.incNewIndex (TTDBTable.decOldIndex s2 ov t) vv t else s2
       | some ov, none => TTDBTable.decOldIndex s2 ov t
       | none, some vv => TTDBTable.incNewIndex s2 vv t
       | none, none => s2) := by
  unfold TTDBTable.writeValueRoot
  rcases hp : s.readValueRootSt k t with ⟨old, s1⟩
  have h1 : old = s.readValuePure k t := by rw [← readValueRootSt_fst, hp]
  have h2 : s1 = { s with table := (readItemSt s.table k t).2 } := by
    rw [← readValueRootSt_snd, hp]
  subst h2
  simp only [hp, ← h1]
  cases old with
  | none => cases v <;> simp
  | some ov =>
    cases v with
    | none => simp
    | some vv =>
      by_cases hov : ov = vv
      · simp [hov]
      · simp [hov, Option.some.injEq]

theorem decOldIndex_autopurge (s : TTDBTable) (ov : String) (t : Nat) :
    (TTDBTable.decOldIndex s ov t).autopurge = s.autopurge := by
  rw [decOldIndex_eq]

theorem incNewIndex_autopurge (s : TTDBTable) (v : String) (t : Nat) :
    (TTDBTable.incNewIndex s v t).autopurge = s.autopurge := by
  rw [incNewIndex_eq]

theorem writeValueRoot_table (s : TTDBTable) (k : String) (v : Option String) (t : Nat) :
    (s.writeValueRoot k v t).table = insertItem s.autopurge (readItemSt s.table k t).2 k (v, t) := by
  rw [writeValueRoot_cases]
  cases ho : s.readValuePure k t <;> cases v <;>
    simp [decOldIndex_table, incNewIndex_table] <;>
    split_ifs <;>
    simp [decOldIndex_table, incNewIndex_table]

theorem writeValueRoot_autopurge (s : TTDBTable) (k : String) (v : Option String) (t : Nat) :
    (s.writeValueRoot k v t).autopurge = s.autopurge := by
  rw [writeValueRoot_cases]
  cases ho : s.readValuePure k t <;> cases v <;>
    simp [decOldIndex_autopurge, incNewIndex_autopurge] <;>
    split_ifs <;>
    simp [decOldIndex_autopurge, incNewIndex_autopurge]

theorem writeValueRoot_table_ne (s : TTDBTable) (k : String) (v : Option String)
    (t : Nat) {k' : String} (h : k' ≠ k) :
    entriesAt (s.writeValueRoot k v t).table k' = entriesAt s.table k' := by
  rw [writeValueRoot_table]
  exact insertAfterRead_ne _ _ _ _ _ h

theorem writeValueRoot_table_self {s : TTDBTable} {c t : Nat} {k : String}
    (hap : s.autopurge = false)
    (hb : ∀ es, entriesAt s.table k = some es → EntriesLE c es) (hc : c < t)
    (v : Option String) :
    entriesAt (s.writeValueRoot k v t).table k
      = some ((entriesAt s.table k).getD [] ++ [(v, t)]) := by
  rw [writeValueRoot_table, hap]
  exact insertAfterRead_self hc k hb v

theorem writeValueRoot_table_keys (s : TTDBTable) (k : String) (v : Option String) (t : Nat) :
    keysOf (s.writeValueRoot k v t).table =
      if (dictGet s.table k).isSome then keysOf s.table else keysOf s.table ++ [k] := by
  rw [writeValueRoot_table]
  exact insertAfterRead_keys _ _ _ _ _

theorem writeValueRoot_index_eq_old (s : TTDBTable) (k : String) (v : Option String)
    (t : Nat) (h : s.readValuePure k t = v) :
    (s.writeValueRoot k v t).index = s.index := by
  rw [writeValueRoot_cases, h]
  cases v with
  | none => rfl
  | some vv => simp

theorem writeValueRoot_index_ne (s : TTDBTable) (k : String) (v : Option String)
    (t : Nat) {w : String} (hw1 : s.readValuePure k t ≠ some w) (hw2 : v ≠ some w) :
    entriesAt (s.writeValueRoot k v t).index w = entriesAt s.index w := by
  rw [writeValueRoot_cases]
  cases ho : s.readValuePure k t with
  | none =>
    cases v with
    | none => rfl
    | some vv =>
      have hvv : w ≠ vv := fun h => hw2 (by rw [h])
      simp [incNewIndex_index_ne _ _ _ hvv]
  | some ov =>
    have hov : w ≠ ov := fun h => hw1 (by rw [ho, h])
    cases v with
    | none => simp [decOldIndex_index_ne _ _ _ hov]
    | some vv =>
      have hvv : w ≠ vv := fun h => hw2 (by rw [h])
      by_cases hvo : ov = vv
      · simp [hvo]
      · simp [hvo, incNewIndex_index_ne _ _ _ hvv,
          decOldIndex_index_ne _ _ _ hov]

theorem writeValueRoot_index_dec {s : TTDBTable} {c t : Nat} {k : String}
    {v : Option String} {ov : String}
    (hap : s.autopurge = false) (hli : DictLE c s.index) (hc : c < t)
    (ho : s.readValuePure k t = some ov) (hne : v ≠ some ov) :
    entriesAt (s.writeValueRoot k v t).index ov
      = some ((entriesAt s.index ov).getD [] ++ [(s.readIndexPure ov t - 1, t)]) := by
  rw [writeValueRoot_cases, ho]
  have hb : ∀ es, entriesAt s.index ov = some es → EntriesLE c es :=
    fun es he => entriesAt_of_DictLE hli he
  cases v with
  | none =>
    exact @decOldIndex_index_self
      { s with table := insertItem s.autopurge (readItemSt s.table k t).2 k (none, t) }
      hap c t hc ov hb
  | some vv =>
    have hvvo : vv ≠ ov := fun h => hne (by rw [h])
    have hovv : ¬ ov = vv := fun h => hvvo h.symm
    simp only [ne_eq, hovv, not_false_iff, if_true]
    rw [incNewIndex_index_ne _ _ _ (Ne.symm hvvo)]
    exact @decOldIndex_index_self
      { s with table := insertItem s.autopurge (readItemSt s.table k t).2 k (some vv, t) }
      hap c t hc ov hb

theorem writeValueRoot_index_inc {s : TTDBTable} {c t : Nat} {k : String}
    {v : Option String} {vv : String}
    (hap : s.autopurge = false) (hli : DictLE c s.index) (hc : c < t)
    (hv : v = some vv) (hne : s.readValuePure k t ≠ v) :
    entriesAt (s.writeValueRoot k v t).index vv
      = some ((entriesAt s.index vv).getD [] ++ [(s.readIndexPure vv t + 1, t)]) := by
  subst hv
  rw [writeValueRoot_cases]
  have hb : ∀ es, entriesAt s.index vv = some es → EntriesLE c es :=
    fun es he => entriesAt_of_DictLE hli he
  cases ho : s.readValuePure k t with
  | none =>
    exact @incNewIndex_index_self
      { s with table := insertItem s.autopurge (readItemSt s.table k t).2 k (some vv, t) }
      hap c t hc vv hb
  | some ov =>
    have hovv : ov ≠ vv := fun h => hne (by rw [ho, h])
    simp only [ne_eq, hovv, not_false_iff, if_true]
    set s2 : TTDBTable := { s with table := insertItem s.autopurge (readItemSt s.table k t).2 k (some vv, t) } with hs2
    have hdec_ent : entriesAt (TTDBTable.decOldIndex s2 ov t).index vv = entriesAt s.index vv := by
      rw [decOldIndex_index_ne _ _ _ (Ne.symm hovv)]
    have hdec_ap : (TTDBTable.decOldIndex s2 ov t).autopurge = false := by
      rw [decOldIndex_autopurge, hs2]
      exact hap
    have hdec_read : (TTDBTable.decOldIndex s2 ov t).readIndexPure vv t = s.readIndexPure vv t :=
      readIndexPure_congr hdec_ent t
    have hb2 : ∀ es, entriesAt (TTDBTable.decOldIndex s2 ov t).index vv = some es → EntriesLE c es := by
      rw [hdec_ent]
      exact hb
    rw [incNewIndex_index_self hdec_ap hc vv hb2, hdec_ent, hdec_read]

theorem writeValueRoot_index_keys (s : TTDBTable) (k : String) (v : Option String)
    (t : Nat) :
    ∃ ks : List String, keysOf (s.writeValueRoot k v t).index = keysOf s.index ++ ks
      ∧ ks.Nodup ∧ ∀ x ∈ ks, dictGet s.index x = none := by
  rw [writeValueRoot_cases]
  cases ho : s.readValuePure k t with
  | none =>
    cases v with
    | none => exact ⟨[], by simp, List.nodup_nil, by simp⟩
    | some vv =>
      rw [incNewIndex_index_keys]
      by_cases hp : (dictGet s.index vv).isSome
      · exact ⟨[], by simp [hp], List.nodup_nil, by simp⟩
      · refine ⟨[vv], by simp [hp], List.nodup_singleton _, ?_⟩
        intro x hx
        rw [List.mem_singleton] at hx
        subst hx
        cases hg : dictGet s.index x with
        | none => rfl
        | some b => rw [hg] at hp; simp at hp
  | some ov =>
    cases v with
    | none =>
      rw [decOldIndex_index_keys]
      by_cases hp : (dictGet s.index ov).isSome
      · exact ⟨[], by simp [hp], List.nodup_nil, by simp⟩
      · refine ⟨[ov], by simp [hp], List.nodup_singleton _, ?_⟩
        intro x hx
        rw [List.mem_singleton] at hx
        subst hx
        cases hg : dictGet s.index x with
        | none => rfl
        | some b => rw [hg] at hp; simp at hp
    | some vv =>
      by_cases hov : ov = vv
      · exact ⟨[], by simp [hov], List.nodup_nil, by simp⟩
      · simp only [ne_eq, hov, not_false_iff, if_true]
        set s2 : TTDBTable := { s with table := insertItem s.autopurge (readItemSt s.table k t).2 k (some vv, t) } with hs2
        rw [incNewIndex_index_keys, decOldIndex_index_keys]
        have hivv : (dictGet (TTDBTable.decOldIndex s2 ov t).index vv).isSome
            = (dictGet s.index vv).isSome := by
          rw [← entriesAt_isSome_iff, ← entriesAt_isSome_iff,
            decOldIndex_index_ne _ _ _ (fun h => hov h.symm)]
        rw [hivv]
        by_cases hpo : (dictGet s.index ov).isSome <;>
          by_cases hpv : (dictGet s.index vv).isSome
        · exact ⟨[], by simp [hpo, hpv], List.nodup_nil, by simp⟩
        · refine ⟨[vv], by simp [hpo, hpv], List.nodup_singleton _, ?_⟩
          intro x hx
          rw [List.mem_singleton] at hx
          subst hx
          cases hg : dictGet s.index x with
          | none => rfl
          | some b => rw [hg] at hpv; simp at hpv
        · refine ⟨[ov], by simp [hpo, hpv], List.nodup_singleton _, ?_⟩
          intro x hx
          rw [List.mem_singleton] at hx
          subst hx
          cases hg : dictGet s.index x with
          | none => rfl
          | some b => rw [hg] at hpo; simp at hpo
        · refine ⟨[ov, vv], by simp [hpo, hpv], ?_, ?_⟩
          · simp [List.nodup_cons, hov]
          · intro x hx
            rcases List.mem_cons.mp hx with h1 | h1
            · subst h1
              cases hg : dictGet s.index x with
              | none => rfl
              | some b => rw [hg] at hpo; simp at hpo
            · rw [List.mem_singleton] at h1
              subst h1
              cases hg : dictGet s.index x with
              | none => rfl
              | some b => rw [hg] at hpv; simp at hpv

theorem EntriesLE.mono {es : List (α × Nat)} {c c2 : Nat}
    (h : EntriesLE c es) (hc : c ≤ c2) : EntriesLE c2 es :=
  fun e he => le_trans (h e he) hc

theorem entriesAt_getD_le [DecidableEq κ] {d : Dict κ α} {c : Nat}
    (hle : DictLE c d) (k : κ) : EntriesLE c ((entriesAt d k).getD []) := by
  cases hg : entriesAt d k with
  | none => intro e he; simp at he
  | some es => exact entriesAt_of_DictLE hle hg

theorem readValuePure_write_self_high {s : TTDBTable} {c t : Nat} {k : String}
    (hap : s.autopurge = false) (hlt : DictLE c s.table) (hc : c < t)
    (v : Option String) {u : Nat} (ht : t ≤ u) :
    (s.writeValueRoot k v t).readValuePure k u = v := by
  have hchar := @writeValueRoot_table_self s c t k hap
    (fun es he => entriesAt_of_DictLE hlt he) hc v
  rw [readValuePure_eq_of_entriesAt hchar u]
  rw [lastLE_append_single v (entriesAt_getD_le hlt k) hc u]
  simp [ht]

theorem readValuePure_write_self_low {s : TTDBTable} {c t : Nat} {k : String}
    (hap : s.autopurge = false) (hlt : DictLE c s.table) (hc : c < t)
    (v : Option String) {u : Nat} (hu : u < t) :
    (s.writeValueRoot k v t).readValuePure k u = s.readValuePure k u := by
  have hchar := @writeValueRoot_table_self s c t k hap
    (fun es he => entriesAt_of_DictLE hlt he) hc v
  rw [readValuePure_eq_of_entriesAt hchar u]
  rw [lastLE_append_single v (entriesAt_getD_le hlt k) hc u]
  rw [if_neg (by omega : ¬ t ≤ u)]
  cases hg : entriesAt s.table k with
  | none =>
    rw [readValuePure_eq_none_of_absent hg u]
    rfl
  | some es =>
    rw [readValuePure_eq_of_entriesAt hg u]
    rfl

theorem readValuePure_write_ne (s : TTDBTable) (k : String) (v : Option String)
    (t : Nat) {k' : String} (h : k' ≠ k) (u : Nat) :
    (s.writeValueRoot k v t).readValuePure k' u = s.readValuePure k' u :=
  readValuePure_congr (writeValueRoot_table_ne s k v t h) u

theorem readValuePure_high {s : TTDBTable} {c : Nat}
    (hlt : DictLE c s.table) {t u : Nat} (ht : c ≤ t) (hu : c ≤ u) (x : String) :
    s.readValuePure x t = s.readValuePure x u := by
  cases hg : entriesAt s.table x with
  | none => rw [readValuePure_eq_none_of_absent hg, readValuePure_eq_none_of_absent hg]
  | some es =>
    rw [readValuePure_eq_of_entriesAt hg, readValuePure_eq_of_entriesAt hg]
    have hle := entriesAt_of_DictLE hlt hg
    rw [lastLE_all_le hle ht, lastLE_all_le hle hu]

/-! ### Key-count bookkeeping -/

theorem filter_length_update {p q : String → Bool} {l : List String} {k : String}
    (hnd : l.Nodup) (hk : k ∈ l) (hag : ∀ x ∈ l, x ≠ k → p x = q x) :
    (l.filter q).length + (if p k then 1 else 0)
      = (l.filter p).length + (if q k then 1 else 0) := by
  induction l with
  | nil => simp at hk
  | cons a l ih =>
    rw [List.nodup_cons] at hnd
    rcases List.mem_cons.mp hk with h1 | h1
    · subst h1
      have hfil : l.filter p = l.filter q := by
        apply List.filter_congr
        intro x hx
        exact hag x (List.mem_cons_of_mem _ hx) (fun h => hnd.1 (h ▸ hx))
      by_cases hp : p k <;> by_cases hq : q k <;>
        simp [List.filter_cons, hp, hq, hfil] <;> omega
    · have ha : a ≠ k := fun h => hnd.1 (h ▸ h1)
      have hpa : p a = q a := hag a (List.mem_cons_self _ _) ha
      have := ih hnd.2 h1 (fun x hx hxk => hag x (List.mem_cons_of_mem _ hx) hxk)
      by_cases hp : p a <;>
        simp [List.filter_cons, hp, hpa ▸ hp, ← hpa, this] <;> omega

theorem countKeys_congr {s s2 : TTDBTable} {u : Nat}
    (hk : keysOf s2.table = keysOf s.table)
    (hp : ∀ x ∈ keysOf s.table, s2.readValuePure x u = s.readValuePure x u)
    (w : String) : countKeys s2 w u = countKeys s w u := by
  unfold countKeys keysWithValue
  rw [hk]
  rw [List.filter_congr (fun x hx => by rw [hp x hx])]

theorem countKeys_append_new {s s2 : TTDBTable} {u : Nat} {k : String}
    (hk : keysOf s2.table = keysOf s.table ++ [k])
    (hp : ∀ x ∈ keysOf s.table, s2.readValuePure x u = s.readValuePure x u)
    (w : String) :
    countKeys s2 w u = countKeys s w u
      + (if s2.readValuePure k u = some w then 1 else 0) := by
  unfold countKeys keysWithValue
  rw [hk, List.filter_append]
  rw [List.filter_congr (fun x hx => by rw [hp x hx])]
  rw [List.length_append]
  congr 1
  by_cases hq : s2.readValuePure k u = some w <;> simp [List.filter_cons, hq]

theorem countKeys_update {s s2 : TTDBTable} {u : Nat} {k : String}
    (hk : keysOf s2.table = keysOf s.table)
    (hnd : (keysOf s.table).Nodup) (hmem : k ∈ keysOf s.table)
    (hp : ∀ x ∈ keysOf s.table, x ≠ k → s2.readValuePure x u = s.readValuePure x u)
    (w : String) :
    countKeys s2 w u + (if s.readValuePure k u = some w then 1 else 0)
      = countKeys s w u + (if s2.readValuePure k u = some w then 1 else 0) := by
  unfold countKeys keysWithValue
  rw [hk]
  have := filter_length_update (l := keysOf s.table)
    (p := fun x => decide (s.readValuePure x u = some w))
    (q := fun x => decide (s2.readValuePure x u = some w))
    hnd hmem (fun x hx hxk => by simp only [hp x hx hxk])
  by_cases hP : s.readValuePure k u = some w <;>
    by_cases hQ : s2.readValuePure k u = some w <;>
    simp [hP, hQ] at this ⊢ <;> omega

theorem isSome_mem_keysOf [DecidableEq κ] {d : Dict κ α} {k : κ}
    (h : (dictGet d k).isSome) : k ∈ keysOf d := by
  by_contra hk
  rw [dictGet_eq_none_iff.mpr hk] at h
  cases h

theorem RootInv_write {s : TTDBTable} {c : Nat} (h : RootInv s c) {t : Nat}
    (hc : c < t) (k : String) (v : Option String) :
    RootInv (s.writeValueRoot k v t) t := by
  obtain ⟨hap, hndT, hndI, hleT, hleI, hcount⟩ := h
  have hbT : ∀ es, entriesAt s.table k = some es → EntriesLE c es :=
    fun es he => entriesAt_of_DictLE hleT he
  have hcharT := @writeValueRoot_table_self s c t k hap hbT hc v
  have hkT : ((dictGet s.table k).isSome
        ∧ keysOf (s.writeValueRoot k v t).table = keysOf s.table)
      ∨ (dictGet s.table k = none
        ∧ keysOf (s.writeValueRoot k v t).table = keysOf s.table ++ [k]) := by
    rw [writeValueRoot_table_keys]
    cases hg : dictGet s.table k with
    | none => right; exact ⟨rfl, by simp⟩
    | some b => left; exact ⟨rfl, by simp⟩
  have hndT' : (keysOf (s.writeValueRoot k v t).table).Nodup := by
    rcases hkT with ⟨_, hk⟩ | ⟨hnone, hk⟩
    · rw [hk]; exact hndT
    · rw [hk]
      refine List.Nodup.append hndT (List.nodup_singleton _) ?_
      intro x hx hx2
      rw [List.mem_singleton] at hx2
      subst hx2
      exact (dictGet_eq_none_iff.mp hnone) hx
  obtain ⟨ks, hkI, hksnd, hksabs⟩ := writeValueRoot_index_keys s k v t
  have hndI' : (keysOf (s.writeValueRoot k v t).index).Nodup := by
    rw [hkI]
    refine List.Nodup.append hndI hksnd ?_
    intro x hx hx2
    exact (dictGet_eq_none_iff.mp (hksabs x hx2)) hx
  have hshapeI : ∀ w, entriesAt (s.writeValueRoot k v t).index w = entriesAt s.index w
      ∨ ∃ x : Int, entriesAt (s.writeValueRoot k v t).index w
          = some ((entriesAt s.index w).getD [] ++ [(x, t)]) := by
    intro w
    by_cases hov : s.readValuePure k t = v
    · left
      rw [writeValueRoot_index_eq_old s k v t hov]
    · by_cases hw1 : s.readValuePure k t = some w
      · right
        exact ⟨s.readIndexPure w t - 1,
          @writeValueRoot_index_dec s c t k v w hap hleI hc hw1
            (fun hv => hov (by rw [hw1, hv]))⟩
      · by_cases hw2 : v = some w
        · right
          exact ⟨s.readIndexPure w t + 1,
            @writeValueRoot_index_inc s c t k v w hap hleI hc hw2 hov⟩
        · left
          exact writeValueRoot_index_ne s k v t hw1 hw2
  have hleT' : DictLE t (s.writeValueRoot k v t).table := by
    intro kv hkv
    have hekv : entriesAt (s.writeValueRoot k v t).table kv.1 = some kv.2.entries := by
      rw [entriesAt, mem_dictGet_of_nodup hndT' hkv]
      rfl
    by_cases hk1 : kv.1 = k
    · rw [hk1, hcharT] at hekv
      have h2 : kv.2.entries = (entriesAt s.table k).getD [] ++ [(v, t)] :=
        (Option.some.inj hekv).symm
      rw [h2]
      intro e he
      rcases List.mem_append.mp he with h3 | h3
      · exact le_trans (entriesAt_getD_le hleT k e h3) (le_of_lt hc)
      · rw [List.mem_singleton] at h3
        subst h3
        exact le_refl t
    · rw [writeValueRoot_table_ne s k v t hk1] at hekv
      exact EntriesLE.mono (entriesAt_of_DictLE hleT hekv) (le_of_lt hc)
  have hleI' : DictLE t (s.writeValueRoot k v t).index := by
    intro kv hkv
    have hekv : entriesAt (s.writeValueRoot k v t).index kv.1 = some kv.2.entries := by
      rw [entriesAt, mem_dictGet_of_nodup hndI' hkv]
      rfl
    rcases hshapeI kv.1 with hsh | ⟨x, hsh⟩
    · rw [hsh] at hekv
      exact EntriesLE.mono (entriesAt_of_DictLE hleI hekv) (le_of_lt hc)
    · rw [hsh] at hekv
      have h2 : kv.2.entries = (entriesAt s.index kv.1).getD [] ++ [(x, t)] :=
        (Option.some.inj hekv).symm
      rw [h2]
      intro e he
      rcases List.mem_append.mp he with h3 | h3
      · exact le_trans (entriesAt_getD_le hleI kv.1 e h3) (le_of_lt hc)
      · rw [List.mem_singleton] at h3
        subst h3
        exact le_refl t
  refine ⟨by rw [writeValueRoot_autopurge]; exact hap, hndT', hndI', hleT', hleI', ?_⟩
  intro w u
  by_cases hu : u < t
  · -- times strictly before the write: nothing observable changed
    have hidx : (s.writeValueRoot k v t).readIndexPure w u = s.readIndexPure w u := by
      rcases hshapeI w with hsh | ⟨x, hsh⟩
      · exact readIndexPure_congr hsh u
      · rw [readIndexPure_eq_of_entriesAt hsh u]
        rw [lastLE_append_single x (entriesAt_getD_le hleI w) hc u,
          if_neg (by omega : ¬ t ≤ u)]
        cases hg : entriesAt s.index w with
        | none =>
          rw [readIndexPure_eq_zero_of_absent hg u]
          rfl
        | some es =>
          rw [readIndexPure_eq_of_entriesAt hg u]
          rfl
    have hvals : ∀ x ∈ keysOf s.table,
        (s.writeValueRoot k v t).readValuePure x u = s.readValuePure x u := by
      intro x hx
      by_cases hxk : x = k
      · subst hxk
        exact readValuePure_write_self_low hap hleT hc v hu
      · exact readValuePure_write_ne s k v t hxk u
    have hck : countKeys (s.writeValueRoot k v t) w u = countKeys s w u := by
      rcases hkT with ⟨_, hk⟩ | ⟨hnone, hk⟩
      · exact countKeys_congr hk hvals w
      · rw [countKeys_append_new hk hvals w]
        have hlow : (s.writeValueRoot k v t).readValuePure k u = s.readValuePure k u :=
          readValuePure_write_self_low hap hleT hc v hu
        have habs : s.readValuePure k u = none :=
          readValuePure_eq_none_of_absent (by rw [entriesAt, hnone]; rfl) u
        rw [hlow, habs]
        simp
    rw [hidx, hck, hcount w u]
  · -- times at or after the write
    have hu' : t ≤ u := by omega
    have hcu : c ≤ u := by omega
    have hhigh : ∀ x, s.readValuePure x u = s.readValuePure x t :=
      fun x => readValuePure_high hleT hcu (le_of_lt hc) x
    have hselfv : (s.writeValueRoot k v t).readValuePure k u = v :=
      readValuePure_write_self_high hap hleT hc v hu'
    have hcktime : countKeys s w u = countKeys s w t := by
      unfold countKeys keysWithValue
      apply congrArg List.length
      apply List.filter_congr
      intro x hx
      simp only [hhigh x]
    by_cases hov : s.readValuePure k t = v
    · have hidx : (s.writeValueRoot k v t).readIndexPure w u = s.readIndexPure w u :=
        readIndexPure_congr (by rw [writeValueRoot_index_eq_old s k v t hov]) u
      have hck : countKeys (s.writeValueRoot k v t) w u = countKeys s w u := by
        have hvals : ∀ x ∈ keysOf s.table,
            (s.writeValueRoot k v t).readValuePure x u = s.readValuePure x u := by
          intro x hx
          by_cases hxk : x = k
          · subst hxk
            rw [hselfv, hhigh x, hov]
          · exact readValuePure_write_ne s k v t hxk u
        rcases hkT with ⟨_, hk⟩ | ⟨hnone, hk⟩
        · exact countKeys_congr hk hvals w
        · rw [countKeys_append_new hk hvals w]
          have habs : s.readValuePure k t = none :=
            readValuePure_eq_none_of_absent (by rw [entriesAt, hnone]; rfl) t
          rw [hselfv, ← hov, habs]
          simp
      rw [hidx, hck, hcount w u]
    · have hvals' : ∀ x ∈ keysOf s.table, x ≠ k →
          (s.writeValueRoot k v t).readValuePure x u = s.readValuePure x u :=
        fun x hx hxk => readValuePure_write_ne s k v t hxk u
      by_cases hw1 : s.readValuePure k t = some w
      · -- the old value's bucket: decremented, and k leaves the count
        have hvne : v ≠ some w := fun hv => hov (by rw [hw1, hv])
        have hchar := @writeValueRoot_index_dec s c t k v w hap hleI hc hw1 hvne
        have hidx : (s.writeValueRoot k v t).readIndexPure w u
            = s.readIndexPure w t - 1 := by
          rw [readIndexPure_eq_of_entriesAt hchar u,
            lastLE_append_single _ (entriesAt_getD_le hleI w) hc u, if_pos hu']
        have hkmem : k ∈ keysOf s.table := by
          by_contra hkm
          rw [readValuePure_eq_none_of_absent
            (by rw [entriesAt, dictGet_eq_none_iff.mpr hkm]; rfl) t] at hw1
          cases hw1
        have hkeys : keysOf (s.writeValueRoot k v t).table = keysOf s.table := by
          rcases hkT with ⟨_, hk⟩ | ⟨hnone, hk⟩
          · exact hk
          · exact absurd hkmem (dictGet_eq_none_iff.mp hnone)
        have hupd := countKeys_update hkeys hndT hkmem hvals' w
        have hPk : s.readValuePure k u = some w := by rw [hhigh k, hw1]
        have hQk : ¬ ((s.writeValueRoot k v t).readValuePure k u = some w) := by
          rw [hselfv]
          exact hvne
        rw [if_pos hPk, if_neg hQk] at hupd
        rw [hidx, hcount w t, ← hcktime]
        omega
      · by_cases hw2 : v = some w
        · -- the new value's bucket: incremented, and k joins the count
          have hchar := @writeValueRoot_index_inc s c t k v w hap hleI hc hw2 hov
          have hidx : (s.writeValueRoot k v t).readIndexPure w u
              = s.readIndexPure w t + 1 := by
            rw [readIndexPure_eq_of_entriesAt hchar u,
              lastLE_append_single _ (entriesAt_getD_le hleI w) hc u, if_pos hu']
          have hQk : (s.writeValueRoot k v t).readValuePure k u = some w := by
            rw [hselfv, hw2]
          have hPk : ¬ (s.readValuePure k u = some w) := by
            rw [hhigh k]
            exact hw1
          rcases hkT with ⟨hsome, hkeys⟩ | ⟨hnone, hkeys⟩
          · have hupd := countKeys_update hkeys hndT (isSome_mem_keysOf hsome) hvals' w
            rw [if_pos hQk, if_neg hPk] at hupd
            rw [hidx, hcount w t, ← hcktime]
            omega
          · have happ := countKeys_append_new hkeys
              (fun x hx => hvals' x hx
                (fun hxk => (dictGet_eq_none_iff.mp hnone) (hxk ▸ hx))) w
            rw [if_pos hQk] at happ
            rw [hidx, hcount w t, ← hcktime]
            omega
        · -- a value unrelated to the write: count and bucket both unchanged
          have hidx : (s.writeValueRoot k v t).readIndexPure w u
              = s.readIndexPure w u :=
            readIndexPure_congr (writeValueRoot_index_ne s k v t hw1 hw2) u
          have hPk : ¬ (s.readValuePure k u = some w) := by
            rw [hhigh k]
            exact hw1
          have hQk : ¬ ((s.writeValueRoot k v t).readValuePure k u = some w) := by
            rw [hselfv]
            exact hw2
          have hck : countKeys (s.writeValueRoot k v t) w u = countKeys s w u := by
            rcases hkT with ⟨hsome, hkeys⟩ | ⟨hnone, hkeys⟩
            · have hupd := countKeys_update hkeys hndT (isSome_mem_keysOf hsome) hvals' w
              rw [if_neg hQk, if_neg hPk] at hupd
              omega
            · have happ := countKeys_append_new hkeys
                (fun x hx => hvals' x hx
                  (fun hxk => (dictGet_eq_none_iff.mp hnone) (hxk ▸ hx))) w
              rw [if_neg hQk] at happ
              omega
          rw [hidx, hck, hcount w u]

theorem RootInv_mkTable (pp n0 : Nat) : RootInv (mkTable false pp n0) 0 := by
  refine ⟨rfl, List.nodup_nil, List.nodup_nil, ?_, ?_, ?_⟩
  · intro kv hkv
    cases hkv
  · intro kv hkv
    cases hkv
  · intro v t
    rfl

theorem RootInv_applyWrites {s : TTDBTable} {c : Nat}
    {ws : List (String × Option String × Nat)}
    (h : RootInv s c) (hw : StampsChain c ws) :
    ∃ c2, RootInv (applyWrites s ws) c2 := by
  induction ws generalizing s c with
  | nil => exact ⟨c, h⟩
  | cons e ws ih =>
    obtain ⟨k, v, t⟩ := e
    obtain ⟨hct, hrest⟩ := hw
    exact ih (RootInv_write h hct k v) hrest

theorem readValuePure_mem_keys {s : TTDBTable} {k v : String} {t : Nat}
    (h : s.readValuePure k t = some v) : k ∈ keysOf s.table := by
  by_contra hk
  rw [readValuePure_eq_none_of_absent
    (by rw [entriesAt, dictGet_eq_none_iff.mpr hk]; rfl) t] at h
  cases h

/-- C2: on any history of direct root writes with strictly increasing minted
stamps, the count reported by `NUMEQUALTO v` (`read_index(v, t)`) equals, at
every timestamp `t`, the number of table keys `k` with `read_value(k, t) = v`
(`countKeys` is the length of the filtered key list); the stateful
`read_index` reports exactly the pure count, and a key reading as some value
is a table key; moreover `write_value` leaves the index untouched when the
old value equals the new one, and otherwise appends a decrement entry to the
old value's bucket and an increment entry to the new value's bucket. -/
theorem ttdb_C2_index_counts_keys (pp n0 : Nat)
    (ws : List (String × Option String × Nat)) (hw : StampsChain 0 ws) :
    (∀ v t, (applyWrites (mkTable false pp n0) ws).readIndexPure v t
        = (countKeys (applyWrites (mkTable false pp n0) ws) v t : Int))
    ∧ (∀ v t, ((applyWrites (mkTable false pp n0) ws).readIndexRootSt v t).1
        = (applyWrites (mkTable false pp n0) ws).readIndexPure v t)
    ∧ (∀ k v t, (applyWrites (mkTable false pp n0) ws).readValuePure k t = some v
        → k ∈ keysOf (applyWrites (mkTable false pp n0) ws).table)
    ∧ (∀ (s : TTDBTable) k v t, s.readValuePure k t = v
        → (s.writeValueRoot k v t).index = s.index)
    ∧ (∀ (s : TTDBTable) (c t : Nat) k v ov, s.autopurge = false
        → DictLE c s.index → c < t → s.readValuePure k t = some ov
        → v ≠ some ov
        → entriesAt (s.writeValueRoot k v t).index ov
            = some ((entriesAt s.index ov).getD []
                ++ [(s.readIndexPure ov t - 1, t)]))
    ∧ (∀ (s : TTDBTable) (c t : Nat) k v vv, s.autopurge = false
        → DictLE c s.index → c < t → v = some vv
        → s.readValuePure k t ≠ v
        → entriesAt (s.writeValueRoot k v t).index vv
            = some ((entriesAt s.index vv).getD []
                ++ [(s.readIndexPure vv t + 1, t)])) := by
  obtain ⟨c2, hinv⟩ := RootInv_applyWrites (RootInv_mkTable pp n0) hw
  obtain ⟨_, _, _, _, _, hcount⟩ := hinv
  refine ⟨hcount, ?_, ?_, ?_, ?_, ?_⟩
  · intro v t
    exact readIndexRootSt_fst _ v t
  · intro k v t h
    exact readValuePure_mem_keys h
  · intro s k v t h
    exact writeValueRoot_index_eq_old s k v t h
  · intro s c t k v ov hap hli hc ho hne
    exact @writeValueRoot_index_dec s c t k v ov hap hli hc ho hne
  · intro s c t k v vv hap hli hc hv hne
    exact @writeValueRoot_index_inc s c t k v vv hap hli hc hv hne

/-- Witness for C2 at the spec's index-maintenance scenario. -/
theorem ttdb_C2_index_counts_keys_witness :
    StampsChain 0 [("a", some "10", 1), ("b", some "10", 2), ("a", some "20", 3)]
    ∧ (applyWrites (mkTable false 20 0)
        [("a", some "10", 1), ("b", some "10", 2), ("a", some "20", 3)]).readIndexPure "10" 2
      = (countKeys (applyWrites (mkTable false 20 0)
          [("a", some "10", 1), ("b", some "10", 2), ("a", some "20", 3)]) "10" 2 : Int)
    ∧ countKeys (applyWrites (mkTable false 20 0)
        [("a", some "10", 1), ("b", some "10", 2), ("a", some "20", 3)]) "10" 2 = 2 := by
  have hchain : StampsChain 0
      [("a", some "10", 1), ("b", some "10", 2), ("a", some "20", 3)] :=
    ⟨by omega, by omega, by omega, trivial⟩
  exact ⟨hchain,
    (ttdb_C2_index_counts_keys 20 0 _ hchain).1 "10" 2,
    by decide⟩

/-! ### C6: read stamps are overwritten, not maxed -/

theorem insertItem_readStamp [DecidableEq κ] (ap : Bool) (d : Dict κ α) (k : κ)
    (item : α × Nat) :
    (dictGet (insertItem ap d k item) k).map Bucket.readStamp = some item.2 := by
  unfold insertItem
  cases hg : dictGet d k with
  | none => rw [dictGet_dictSet_self]; rfl
  | some b =>
    by_cases hap : ap <;>
      simp only [hap, Bool.false_eq_true, if_false, if_true] <;>
      rw [dictGet_dictSet_self] <;> rfl

/-- C6, counterexample: for a bucket with `read_stamp` 5, a read at time 3
leaves `read_stamp` 3 — not `max 5 3 = 5` as the claim states — and an insert
stamped 3 does the same, so a read stamp can decrease. -/
theorem ttdb_C6_counterexample :
    (dictGet (readItemSt [("k", (⟨[(some "a", 1)], 5⟩ : Bucket (Option String)))]
        "k" 3).2 "k").map Bucket.readStamp = some 3
    ∧ (dictGet (insertItem false
        [("k", (⟨[(some "a", 1)], 5⟩ : Bucket (Option String)))]
        "k" (some "b", 3)) "k").map Bucket.readStamp = some 3
    ∧ max 5 3 = 5 ∧ (3 : Nat) ≠ 5 := by
  refine ⟨?_, ?_, by decide, by decide⟩ <;> decide

/-- C6, amended: after `read(bucket_map, key, t)` on an existing bucket, and
after any insert of an item stamped `t`, the bucket's `read_stamp` equals `t`
itself — the code overwrites it with `t` rather than taking
`max(read_stamp, t)` — so a bucket's read stamp can decrease. -/
theorem ttdb_C6_read_stamp_overwrite :
    (∀ (d : Dict String (Option String)) (k : String) (t : Nat) (b : Bucket (Option String)),
      dictGet d k = some b →
        (dictGet (readItemSt d k t).2 k).map Bucket.readStamp = some t)
    ∧ (∀ (ap : Bool) (d : Dict String (Option String)) (k : String)
        (item : Option String × Nat),
        (dictGet (insertItem ap d k item) k).map Bucket.readStamp = some item.2) := by
  constructor
  · intro d k t b hb
    rw [readItemSt_snd_readStamp hb t]
    rfl
  · intro ap d k item
    exact insertItem_readStamp ap d k item

/-- Witness for the amended C6 at a concrete bucket. -/
theorem ttdb_C6_read_stamp_overwrite_witness :
    (dictGet (readItemSt [("k", (⟨[(some "a", 1)], 5⟩ : Bucket (Option String)))]
        "k" 7).2 "k").map Bucket.readStamp = some 7 :=
  ttdb_C6_read_stamp_overwrite.1 _ "k" 7 ⟨[(some "a", 1)], 5⟩ (by decide)

/-! ### C8: refused direct writes send two replies -/

/-- C8: with another session holding a live outer scope, a session with no
transaction issuing `SET` receives the abort reply and then — because the
trailing `sendall('success')` in `TTDB.set` is outside the `if`/`elif`/`else`
— a second `success` reply; `UNSET` behaves the same with `Aborting write.`;
the root store is not mutated either way. -/
theorem ttdb_C8_double_reply :
    ((⟨mkTable false 20 0, [(1, ⟨5, [mkTable true 20 5]⟩)]⟩ : TTDB).set 2 "a" "1" 9).1
        = ["Conflicting lock. Aborting write.", "success"]
    ∧ ((⟨mkTable false 20 0, [(1, ⟨5, [mkTable true 20 5]⟩)]⟩ : TTDB).set 2 "a" "1" 9).2
        = ⟨mkTable false 20 0, [(1, ⟨5, [mkTable true 20 5]⟩)]⟩
    ∧ ((⟨mkTable false 20 0, [(1, ⟨5, [mkTable true 20 5]⟩)]⟩ : TTDB).unset 2 "a" 9).1
        = ["Aborting write.", "success"]
    ∧ ((⟨mkTable false 20 0, [(1, ⟨5, [mkTable true 20 5]⟩)]⟩ : TTDB).unset 2 "a" 9).2
        = ⟨mkTable false 20 0, [(1, ⟨5, [mkTable true 20 5]⟩)]⟩ := by
  refine ⟨?_, ?_, ?_, ?_⟩ <;> decide

/-! ### C9: the server does not recognise BEGIN RW / BEGIN RO -/

/-- C9: the dispatch chain of `TTDB.run` matches `BEGIN` only as a single
token, so the two-token commands `BEGIN RW` and `BEGIN RO` — including the
`BEGIN RW` that `TTDBClient.do_begin` sends even for a bare `BEGIN` — match
no verb: no transaction is opened and no reply is sent, contrary to the
claim that they are recognised and answered with `success`. -/
theorem ttdb_C9_begin_mode_unrecognised :
    parseDatum ["BEGIN", "RW"] = none
    ∧ parseDatum ["BEGIN", "RO"] = none
    ∧ parseDatum ["BEGIN"] = some Command.beginCmd
    ∧ clientBeginTokens "RW" = ["BEGIN", "RW"]
    ∧ clientBeginTokens "RO" = ["BEGIN", "RO"]
    ∧ parseDatum (clientBeginTokens "RW") = none
    ∧ parseDatum (clientBeginTokens "RO") = none := by
  refine ⟨?_, ?_, ?_, ?_, ?_, ?_, ?_⟩ <;> decide

/-! ### C4: merge validation -/

theorem anyConflict_eq_true_iff [DecidableEq κ] (dst src : Dict κ α) :
    anyConflict dst src = true ↔
      ∃ kv ∈ src, ∃ b, dictGet dst kv.1 = some b
        ∧ kv.2.readStamp < b.readStamp := by
  unfold anyConflict
  rw [List.any_eq_true]
  constructor
  · rintro ⟨kv, hkv, hp⟩
    refine ⟨kv, hkv, ?_⟩
    cases hg : dictGet dst kv.1 with
    | none => rw [hg] at hp; cases hp
    | some b =>
      rw [hg] at hp
      exact ⟨b, rfl, by simpa using hp⟩
  · rintro ⟨kv, hkv, b, hb, hlt⟩
    refine ⟨kv, hkv, ?_⟩
    rw [hb]
    simpa using hlt

theorem update_fst_false_iff (s : TTDBTable) (tb : Dict String (Option String))
    (ix : Dict String Int) :
    (s.update tb ix).1 = false ↔
      anyConflict s.table tb = true ∨ anyConflict s.index ix = true := by
  unfold TTDBTable.update
  by_cases h1 : anyConflict s.table tb <;> by_cases h2 : anyConflict s.index ix <;>
    simp [h1, h2]

/-- C4: under the commit-provenance hypothesis that every incoming bucket's
read stamp field equals its latest write stamp (true of every bucket a
transaction scope produces), `__update` fails exactly when some incoming
table key (or index value) also held by the parent has the parent's bucket
read stamp strictly above the incoming bucket's latest write stamp; otherwise
it succeeds.  (The code literally compares against the incoming read stamp
field, `v[1]`.) -/
theorem ttdb_C4_merge_conflict_iff (s : TTDBTable)
    (tb : Dict String (Option String)) (ix : Dict String Int)
    (hTb : ∀ kv ∈ tb, some kv.2.readStamp = latestWriteStamp kv.2)
    (hIx : ∀ kv ∈ ix, some kv.2.readStamp = latestWriteStamp kv.2) :
    (s.update tb ix).1 = false ↔
      (∃ kv ∈ tb, ∃ b, dictGet s.table kv.1 = some b
        ∧ ∃ w, latestWriteStamp kv.2 = some w ∧ w < b.readStamp)
      ∨ (∃ kv ∈ ix, ∃ b, dictGet s.index kv.1 = some b
        ∧ ∃ w, latestWriteStamp kv.2 = some w ∧ w < b.readStamp) := by
  rw [update_fst_false_iff, anyConflict_eq_true_iff, anyConflict_eq_true_iff]
  constructor
  · rintro (⟨kv, hkv, b, hb, hlt⟩ | ⟨kv, hkv, b, hb, hlt⟩)
    · exact Or.inl ⟨kv, hkv, b, hb, kv.2.readStamp, (hTb kv hkv).symm, hlt⟩
    · exact Or.inr ⟨kv, hkv, b, hb, kv.2.readStamp, (hIx kv hkv).symm, hlt⟩
  · rintro (⟨kv, hkv, b, hb, w, hw, hlt⟩ | ⟨kv, hkv, b, hb, w, hw, hlt⟩)
    · refine Or.inl ⟨kv, hkv, b, hb, ?_⟩
      have : some kv.2.readStamp = some w := (hTb kv hkv).trans hw
      rw [Option.some.inj this]
      exact hlt
    · refine Or.inr ⟨kv, hkv, b, hb, ?_⟩
      have : some kv.2.readStamp = some w := (hIx kv hkv).trans hw
      rw [Option.some.inj this]
      exact hlt

/-- Witness for C4: a parent whose bucket was read at time 15 rejects an
incoming bucket whose only write is stamped 10. -/
theorem ttdb_C4_merge_conflict_iff_witness :
    ((⟨[("k", ⟨[(some "a", 5)], 15⟩)], [], false, 0, 0⟩ : TTDBTable).update
        [("k", ⟨[(some "b", 10)], 10⟩)] []).1 = false :=
  (ttdb_C4_merge_conflict_iff _ _ _ (by decide) (by decide)).mpr
    (Or.inl (by decide))

/-! ### C5: the commit-earliest rule -/

theorem sessGet_sessDel (st : SessionTable) (conn : Nat) :
    sessGet (sessDel st conn) conn = none := by
  induction st with
  | nil => rfl
  | cons hd tl ih =>
    by_cases h : hd.1 = conn
    · simpa [sessDel, List.filter_cons, h] using ih
    · simpa [sessDel, List.filter_cons, h, sessGet, Ne.symm h] using ih

/-- C5: a COMMIT by a session whose outer-scope timestamp is strictly above
the minimum of all live outer scopes replies
`Conflicting lock. Aborting transaction.`, leaves the root store untouched,
and removes the session's transaction; and in every outcome of COMMIT by a
session that has a transaction, that transaction is removed from the session
table. -/
theorem ttdb_C5_commit_earliest (db : TTDB) (conn : Nat) (txn : TTDBTransaction)
    (hconn : sessGet db.transactions conn = some txn) :
    ((minTimestamp db.transactions < txn.timestamp →
        (db.commit conn).1 = ["Conflicting lock. Aborting transaction."]
        ∧ (db.commit conn).2.ttable = db.ttable
        ∧ sessGet (db.commit conn).2.transactions conn = none)
      ∧ sessGet (db.commit conn).2.transactions conn = none) := by
  unfold TTDB.commit
  simp only [hconn]
  by_cases hmin : txn.timestamp > minTimestamp db.transactions
  · simp only [if_pos hmin]
    exact ⟨fun _ => ⟨by simp, by simp, sessGet_sessDel _ _⟩, sessGet_sessDel _ _⟩
  · simp only [if_neg hmin]
    refine ⟨fun h => absurd h (by omega), ?_⟩
    by_cases hok : (txn.commit db.ttable).1 <;> simp [hok, sessGet_sessDel]

/-- Witness for C5: session 9 (stamp 5) commits while session 1 (stamp 3) is
live: it is aborted, the root is unchanged, and its scope is removed. -/
theorem ttdb_C5_commit_earliest_witness :
    ((⟨mkTable false 20 0, [(1, ⟨3, [mkTable true 20 3]⟩), (9, ⟨5, [mkTable true 20 5]⟩)]⟩ : TTDB).commit 9).1
        = ["Conflicting lock. Aborting transaction."]
    ∧ ((⟨mkTable false 20 0, [(1, ⟨3, [mkTable true 20 3]⟩), (9, ⟨5, [mkTable true 20 5]⟩)]⟩ : TTDB).commit 9).2.ttable
        = mkTable false 20 0
    ∧ sessGet ((⟨mkTable false 20 0, [(1, ⟨3, [mkTable true 20 3]⟩), (9, ⟨5, [mkTable true 20 5]⟩)]⟩ : TTDB).commit 9).2.transactions 9
        = none := by
  have h := ttdb_C5_commit_earliest
    ⟨mkTable false 20 0, [(1, ⟨3, [mkTable true 20 3]⟩), (9, ⟨5, [mkTable true 20 5]⟩)]⟩
    9 ⟨5, [mkTable true 20 5]⟩ (by decide)
  exact h.1 (by decide)

/-! ### C10: reads are not pure -/

/-- C10: `read_value` / `read_index` on an existing bucket leave every
bucket's entry sequence (and the other dictionary) unchanged but overwrite
that bucket's read stamp with the read time; a `GET` by a session with no
open transaction performs exactly such a root-store read at the current
time; and this read-stamp motion can flip a later commit validation from
success to failure (shown on a concrete store). -/
theorem ttdb_C10_reads_mutate_read_stamps :
    (∀ (s : TTDBTable) (k : String) (t : Nat) (b : Bucket (Option String)),
      dictGet s.table k = some b →
        (∀ k2, entriesAt (s.readValueRootSt k t).2.table k2 = entriesAt s.table k2)
        ∧ (s.readValueRootSt k t).2.index = s.index
        ∧ dictGet (s.readValueRootSt k t).2.table k = some ⟨b.entries, t⟩)
    ∧ (∀ (s : TTDBTable) (v : String) (t : Nat) (b : Bucket Int),
      dictGet s.index v = some b →
        (∀ v2, entriesAt (s.readIndexRootSt v t).2.index v2 = entriesAt s.index v2)
        ∧ (s.readIndexRootSt v t).2.table = s.table
        ∧ dictGet (s.readIndexRootSt v t).2.index v = some ⟨b.entries, t⟩)
    ∧ (∀ (db : TTDB) (conn : Nat) (k : String) (now : Nat),
      sessGet db.transactions conn = none →
        (db.get conn k now).2.ttable = (db.ttable.readValueRootSt k now).2
        ∧ (db.get conn k now).2.transactions = db.transactions)
    ∧ (((⟨[("k", ⟨[(some "a", 5)], 5⟩)], [], false, 0, 0⟩ : TTDBTable).update
          [("k", ⟨[(some "b", 10)], 10⟩)] []).1 = true
      ∧ ((((⟨[("k", ⟨[(some "a", 5)], 5⟩)], [], false, 0, 0⟩ : TTDBTable).readValueRootSt
            "k" 20).2).update [("k", ⟨[(some "b", 10)], 10⟩)] []).1 = false) := by
  refine ⟨?_, ?_, ?_, by decide, by decide⟩
  · intro s k t b hb
    refine ⟨?_, ?_, ?_⟩
    · intro k2
      rw [readValueRootSt_snd]
      exact readItemSt_snd_entriesAt s.table k t k2
    · rw [readValueRootSt_snd]
    · rw [readValueRootSt_snd]
      exact readItemSt_snd_readStamp hb t
  · intro s v t b hb
    refine ⟨?_, ?_, ?_⟩
    · intro v2
      rw [readIndexRootSt_snd]
      exact readItemSt_snd_entriesAt s.index v t v2
    · rw [readIndexRootSt_snd]
    · rw [readIndexRootSt_snd]
      exact readItemSt_snd_readStamp hb t
  · intro db conn k now hnone
    unfold TTDB.get
    rw [hnone]
    exact ⟨rfl, rfl⟩

/-- Witness for C10 at a concrete store and server state. -/
theorem ttdb_C10_reads_mutate_read_stamps_witness :
    dictGet (((⟨[("k", ⟨[(some "a", 5)], 5⟩)], [], false, 0, 0⟩ : TTDBTable).readValueRootSt
        "k" 20).2).table "k" = some ⟨[(some "a", 5)], 20⟩
    ∧ ((⟨mkTable false 20 0, []⟩ : TTDB).get 7 "x" 3).2.transactions = [] := by
  constructor
  · exact (ttdb_C10_reads_mutate_read_stamps.1
      ⟨[("k", ⟨[(some "a", 5)], 5⟩)], [], false, 0, 0⟩ "k" 20
      ⟨[(some "a", 5)], 5⟩ (by decide)).2.2
  · exact (ttdb_C10_reads_mutate_read_stamps.2.2.1
      ⟨mkTable false 20 0, []⟩ 7 "x" 3 (by decide)).2

/-! ### Purge lemmas -/

theorem keysOf_filterMap_sublist [DecidableEq κ]
    {f : κ × Bucket α → Option (κ × Bucket α)}
    (hf : ∀ kv r, f kv = some r → r.1 = kv.1) (d : Dict κ α) :
    List.Sublist (keysOf (d.filterMap f)) (keysOf d) := by
  induction d with
  | nil => simp [keysOf]
  | cons hd tl ih =>
    rw [List.filterMap_cons]
    cases hr : f hd with
    | none => exact List.Sublist.trans ih (List.sublist_cons_self _ _)
    | some r =>
      have : r.1 = hd.1 := hf hd r hr
      simp only [keysOf, List.map_cons, this]
      exact List.Sublist.cons₂ _ ih

theorem dictGet_filterMap [DecidableEq κ]
    {f : κ × Bucket α → Option (κ × Bucket α)}
    (hf : ∀ kv r, f kv = some r → r.1 = kv.1) {d : Dict κ α}
    (hnd : (keysOf d).Nodup) (k : κ) :
    dictGet (d.filterMap f) k =
      match dictGet d k with
      | none => none
      | some b => (f (k, b)).map Prod.snd := by
  induction d with
  | nil => simp [dictGet]
  | cons hd tl ih =>
    obtain ⟨k1, b1⟩ := hd
    simp only [keysOf, List.map_cons, List.nodup_cons] at hnd
    by_cases hk : k = k1
    · subst hk
      have hL : dictGet ((k, b1) :: tl) k = some b1 := by simp [dictGet]
      simp only [List.filterMap_cons, hL]
      cases hr : f (k, b1) with
      | none =>
        simp only [hr, Option.map_none']
        have hout : k ∉ keysOf (tl.filterMap f) :=
          fun hmem => hnd.1 ((keysOf_filterMap_sublist hf tl).mem hmem)
        exact dictGet_eq_none_iff.mpr hout
      | some r =>
        have hr1 : r.1 = k := hf (k, b1) r hr
        obtain ⟨rk, rb⟩ := r
        simp only at hr1
        subst hr1
        simp [hr, dictGet]
    · have hL : dictGet ((k1, b1) :: tl) k = dictGet tl k := by simp [dictGet, hk]
      simp only [List.filterMap_cons, hL]
      cases hr : f (k1, b1) with
      | none => exact ih hnd.2
      | some r =>
        have hr1 : r.1 = k1 := hf (k1, b1) r hr
        obtain ⟨rk, rb⟩ := r
        simp only at hr1
        subst hr1
        have hstep : dictGet ((rk, rb) :: tl.filterMap f) k = dictGet (tl.filterMap f) k := by
          simp [dictGet, hk]
        rw [hstep]
        exact ih hnd.2

theorem drop_length_sub_one {β} {l : List β} (h : l ≠ []) :
    ∃ last, l.getLast? = some last ∧ l.drop (l.length - 1) = [last] := by
  induction l with
  | nil => exact absurd rfl h
  | cons x tl ih =>
    cases tl with
    | nil => exact ⟨x, rfl, rfl⟩
    | cons y tl2 =>
      obtain ⟨last, h1, h2⟩ := ih (by simp)
      refine ⟨last, ?_, ?_⟩
      · rw [List.getLast?_cons_cons]
        exact h1
      · have : (x :: y :: tl2).length - 1 = (y :: tl2).length := by simp
        rw [this]
        simpa using h2

theorem filter_gt_eq_nil_iff {es : List (α × Nat)} {h : Nat} :
    es.filter (fun e => e.2 > h) = [] ↔ ∀ e ∈ es, e.2 ≤ h := by
  rw [List.filter_eq_nil_iff]
  constructor
  · intro hf e he
    have := hf e he
    simpa using this
  · intro hf e he
    simpa using hf e he

theorem lastLE_filter_gt {es : List (α × Nat)} {h t : Nat} (hs : EntriesSorted es)
    {e : α × Nat} (he : lastLE t es = some e) (hgt : h < e.2) :
    lastLE t (es.filter (fun x => x.2 > h)) = some e := by
  induction es with
  | nil => cases he
  | cons f fs ih =>
    rw [EntriesSorted, List.pairwise_cons] at hs
    rw [lastLE] at he
    by_cases hft : f.2 > t
    · rw [if_pos hft] at he
      cases he
    · rw [if_neg hft] at he
      by_cases hfh : f.2 > h
      · have hfs : fs.filter (fun x => x.2 > h) = fs := by
          rw [List.filter_eq_self]
          intro x hx
          have := hs.1 x hx
          simp only [decide_eq_true_eq]
          omega
        rw [List.filter_cons, if_pos (by simpa using hfh), hfs, lastLE, if_neg hft]
        exact he
      · rw [List.filter_cons, if_neg (by simpa using hfh)]
        cases hfs : lastLE t fs with
        | none =>
          rw [hfs] at he
          simp only [Option.getD_none, Option.some.injEq] at he
          subst he
          omega
        | some e2 =>
          rw [hfs] at he
          simp only [Option.getD_some, Option.some.injEq] at he
          subst he
          exact ih hs.2 hfs

theorem purgeBucketEntries_reads {es : List (α × Nat)} {h t : Nat}
    (hs : EntriesSorted es) (hht : h ≤ t)
    (hcond : (∀ e ∈ es, e.2 ≤ h)
      ∨ (∃ e, lastLE t es = some e ∧ h < e.2) ∨ es = []) :
    lastLE t (TTDBTable.purgeBucketEntries h es) = lastLE t es := by
  unfold TTDBTable.purgeBucketEntries
  by_cases hfil : (es.filter (fun e => e.2 > h)).length > 0
  · simp only [if_pos hfil]
    rcases hcond with hall | ⟨e, he, hgt⟩ | hnil
    · exfalso
      have : es.filter (fun e => e.2 > h) = [] := filter_gt_eq_nil_iff.mpr hall
      rw [this] at hfil
      simp at hfil
    · rw [lastLE_filter_gt hs he hgt, he]
    · subst hnil
      simp at hfil
  · simp only [if_neg hfil]
    have hempty : es.filter (fun e => e.2 > h) = [] := by
      cases hf : es.filter (fun e => e.2 > h) with
      | nil => rfl
      | cons a l => rw [hf] at hfil; simp at hfil
    have hall : ∀ e ∈ es, e.2 ≤ h := filter_gt_eq_nil_iff.mp hempty
    cases hes : es with
    | nil => simp
    | cons f fs =>
      obtain ⟨last, h1, h2⟩ := drop_length_sub_one (l := es) (by rw [hes]; simp)
      rw [← hes, h2]
      have hallt : EntriesLE t es := fun x hx => le_trans (hall x hx) hht
      rw [lastLE_all_le (c := t) hallt (le_refl t), h1]
      have hmem : last ∈ es := by
        refine List.mem_of_mem_drop (n := es.length - 1) ?_
        rw [h2]
        simp
      have hle : last.2 ≤ t := hallt last hmem
      simp [lastLE, if_neg (by omega : ¬ last.2 > t)]

theorem purgeTableBucket_key (h : Nat) :
    ∀ (kv r : String × Bucket (Option String)),
      TTDBTable.purgeTableBucket h kv = some r → r.1 = kv.1 := by
  intro kv r hr
  unfold TTDBTable.purgeTableBucket at hr
  split at hr
  · rw [← Option.some.inj hr]
  · cases hr
  · rw [← Option.some.inj hr]

theorem purgeIndexBucket_key (h : Nat) :
    ∀ (kv r : String × Bucket Int),
      TTDBTable.purgeIndexBucket h kv = some r → r.1 = kv.1 := by
  intro kv r hr
  unfold TTDBTable.purgeIndexBucket at hr
  split at hr
  · split at hr
    · rw [← Option.some.inj hr]
    · cases hr
  · split at hr
    · rw [← Option.some.inj hr]
    · rw [← Option.some.inj hr]

theorem purgeEntries_eq {s : TTDBTable} {h now : Nat}
    (hgate : ¬ (now - s.purgeStamp < s.purgePeriod)) :
    s.purgeEntries h now =
      { s with
        table := s.table.filterMap (TTDBTable.purgeTableBucket h),
        index := s.index.filterMap (TTDBTable.purgeIndexBucket h),
        purgeStamp := now } := by
  unfold TTDBTable.purgeEntries
  rw [if_neg hgate]

theorem purgeEntries_table_get {s : TTDBTable} {h now : Nat}
    (hgate : ¬ (now - s.purgeStamp < s.purgePeriod))
    (hnd : (keysOf s.table).Nodup) (k : String) :
    dictGet (s.purgeEntries h now).table k =
      match dictGet s.table k with
      | none => none
      | some b => (TTDBTable.purgeTableBucket h (k, b)).map Prod.snd := by
  rw [purgeEntries_eq hgate]
  show dictGet (s.table.filterMap (TTDBTable.purgeTableBucket h)) k = _
  rw [dictGet_filterMap (purgeTableBucket_key h) hnd k]
  cases dictGet s.table k <;> rfl

theorem purgeEntries_index_get {s : TTDBTable} {h now : Nat}
    (hgate : ¬ (now - s.purgeStamp < s.purgePeriod))
    (hnd : (keysOf s.index).Nodup) (v : String) :
    dictGet (s.purgeEntries h now).index v =
      match dictGet s.index v with
      | none => none
      | some b => (TTDBTable.purgeIndexBucket h (v, b)).map Prod.snd := by
  rw [purgeEntries_eq hgate]
  show dictGet (s.index.filterMap (TTDBTable.purgeIndexBucket h)) v = _
  rw [dictGet_filterMap (purgeIndexBucket_key h) hnd v]
  cases dictGet s.index v <;> rfl

/-- C3, counterexample: with horizon 2, purge on a two-entry bucket keeps
only the entry stamped 5 and drops the entry stamped 1, so the read at
`t = 3 ≥ horizon` changes from `a` to absent — the claimed preservation for
every `t ≥ horizon` fails on the code (which implements exactly the
claim's own retention rule). -/
theorem ttdb_C3_counterexample :
    (2 : Nat) ≤ 3
    ∧ (⟨[("k", ⟨[(some "a", 1), (some "b", 5)], 5⟩)], [], false, 0, 0⟩ :
        TTDBTable).readValuePure "k" 3 = some "a"
    ∧ ((⟨[("k", ⟨[(some "a", 1), (some "b", 5)], 5⟩)], [], false, 0, 0⟩ :
        TTDBTable).purgeEntries 2 100).readValuePure "k" 3 = none := by
  refine ⟨by decide, by decide, by decide⟩

/-- C3, amended: purge keeps, in every multi-entry bucket, exactly the
entries stamped after the horizon (the single most recent one when none
survive); `read_value` at `t ≥ horizon` is preserved provided the key's
bucket has at most one entry, or all its write stamps are at most the
horizon, or the entry visible at `t` is stamped after the horizon; and
`read_index` likewise, a single-entry bucket additionally requiring its
count to be non-negative or its stamp to be after `t`. -/
theorem ttdb_C3_purge_preservation_amended :
    (∀ (s : TTDBTable) (h now : Nat) (k : String) (b : Bucket (Option String)),
      ¬ (now - s.purgeStamp < s.purgePeriod) → (keysOf s.table).Nodup →
      dictGet s.table k = some b → 1 < b.entries.length →
      dictGet (s.purgeEntries h now).table k
        = some ⟨TTDBTable.purgeBucketEntries h b.entries, b.readStamp⟩)
    ∧ (∀ (s : TTDBTable) (h now : Nat) (v : String) (b : Bucket Int),
      ¬ (now - s.purgeStamp < s.purgePeriod) → (keysOf s.index).Nodup →
      dictGet s.index v = some b → 1 < b.entries.length →
      dictGet (s.purgeEntries h now).index v
        = some ⟨TTDBTable.purgeBucketEntries h b.entries, b.readStamp⟩)
    ∧ (∀ (s : TTDBTable) (h now t : Nat) (k : String),
      ¬ (now - s.purgeStamp < s.purgePeriod) → (keysOf s.table).Nodup →
      DictSorted s.table → h ≤ t →
      (match dictGet s.table k with
        | none => True
        | some b => b.entries.length ≤ 1
            ∨ (∀ e ∈ b.entries, e.2 ≤ h)
            ∨ (match lastLE t b.entries with
                | some e => h < e.2
                | none => False)) →
      (s.purgeEntries h now).readValuePure k t = s.readValuePure k t)
    ∧ (∀ (s : TTDBTable) (h now t : Nat) (v : String),
      ¬ (now - s.purgeStamp < s.purgePeriod) → (keysOf s.index).Nodup →
      DictSorted s.index → h ≤ t →
      (match dictGet s.index v with
        | none => True
        | some b =>
          match b.entries with
          | [(c0, st)] => 0 ≤ c0 ∨ t < st
          | es => es.length ≤ 1
              ∨ (∀ e ∈ es, e.2 ≤ h)
              ∨ (match lastLE t es with
                  | some e => h < e.2
                  | none => False)) →
      (s.purgeEntries h now).readIndexPure v t = s.readIndexPure v t) := by
  refine ⟨?_, ?_, ?_, ?_⟩
  · intro s h now k b hgate hnd hg hlen
    rw [purgeEntries_table_get hgate hnd k, hg]
    obtain ⟨es, rs⟩ := b
    rcases es with _ | ⟨⟨ov, st⟩, tl⟩
    · simp at hlen
    · rcases tl with _ | ⟨e2, tl2⟩
      · simp at hlen
      · cases ov <;> rfl
  · intro s h now v b hgate hnd hg hlen
    rw [purgeEntries_index_get hgate hnd v, hg]
    obtain ⟨es, rs⟩ := b
    rcases es with _ | ⟨⟨c0, st⟩, tl⟩
    · simp at hlen
    · rcases tl with _ | ⟨e2, tl2⟩
      · simp at hlen
      · have hred : (match some (⟨(c0, st) :: e2 :: tl2, rs⟩ : Bucket Int) with
            | none => (none : Option (Bucket Int))
            | some b => Option.map Prod.snd (TTDBTable.purgeIndexBucket h (v, b)))
            = Option.map Prod.snd
                (TTDBTable.purgeIndexBucket h (v, ⟨(c0, st) :: e2 :: tl2, rs⟩)) := rfl
        rw [hred]
        unfold TTDBTable.purgeIndexBucket
        have hl2 : ((c0, st) :: e2 :: tl2).length > 1 := by simp
        simp only [if_pos hl2]
        rfl
  · intro s h now t k hgate hnd hsort hht hcond
    have hget := @purgeEntries_table_get s h now hgate hnd k
    cases hg : dictGet s.table k with
    | none =>
      rw [hg] at hget
      unfold TTDBTable.readValuePure
      rw [hget, hg]
    | some b =>
      rw [hg] at hget
      have hcond2 : b.entries.length ≤ 1 ∨ (∀ e ∈ b.entries, e.2 ≤ h)
          ∨ (match lastLE t b.entries with
              | some e => h < e.2
              | none => False) := by
        rw [hg] at hcond
        exact hcond
      obtain ⟨es, rs⟩ := b
      have hsorted : EntriesSorted es := hsort (k, ⟨es, rs⟩) (dictGet_mem hg)
      rcases es with _ | ⟨⟨ov, st⟩, tl⟩
      · unfold TTDBTable.readValuePure
        rw [hget, hg]
        rfl
      · rcases tl with _ | ⟨e2, tl2⟩
        · cases ov with
          | some x =>
            unfold TTDBTable.readValuePure
            rw [hget, hg]
            rfl
          | none =>
            unfold TTDBTable.readValuePure
            rw [hget, hg]
            by_cases hst : st > t <;> simp [TTDBTable.purgeTableBucket, lastLE, hst]
        · have hga : entriesAt (s.purgeEntries h now).table k
              = some (TTDBTable.purgeBucketEntries h ((ov, st) :: e2 :: tl2)) := by
            rw [entriesAt, hget]
            cases ov <;> rfl
          have hgb : entriesAt s.table k = some ((ov, st) :: e2 :: tl2) := by
            rw [entriesAt, hg]
            rfl
          rw [readValuePure_eq_of_entriesAt hga t, readValuePure_eq_of_entriesAt hgb t]
          have hcondX : (∀ e ∈ (ov, st) :: e2 :: tl2, e.2 ≤ h)
              ∨ (∃ e, lastLE t ((ov, st) :: e2 :: tl2) = some e ∧ h < e.2)
              ∨ ((ov, st) :: e2 :: tl2 = []) := by
            rcases hcond2 with hlen | hall | hvis
            · simp at hlen
            · exact Or.inl hall
            · refine Or.inr (Or.inl ?_)
              cases hl : lastLE t ((ov, st) :: e2 :: tl2) with
              | none => rw [hl] at hvis; exact hvis.elim
              | some e =>
                rw [hl] at hvis
                exact ⟨e, rfl, hvis⟩
          rw [purgeBucketEntries_reads hsorted hht hcondX]
  · intro s h now t v hgate hnd hsort hht hcond
    have hget := @purgeEntries_index_get s h now hgate hnd v
    cases hg : dictGet s.index v with
    | none =>
      rw [hg] at hget
      unfold TTDBTable.readIndexPure
      rw [hget, hg]
    | some b =>
      rw [hg] at hget
      obtain ⟨es, rs⟩ := b
      have hsorted : EntriesSorted es := hsort (v, ⟨es, rs⟩) (dictGet_mem hg)
      rcases es with _ | ⟨⟨c0, st⟩, tl⟩
      · unfold TTDBTable.readIndexPure
        rw [hget, hg]
        rfl
      · rcases tl with _ | ⟨e2, tl2⟩
        · have hcond2 : (0 : Int) ≤ c0 ∨ t < st := by
            rw [hg] at hcond
            exact hcond
          by_cases hc0 : c0 > 0
          · unfold TTDBTable.readIndexPure
            rw [hget, hg]
            simp [TTDBTable.purgeIndexBucket, if_pos hc0]
          · have hPT : TTDBTable.purgeIndexBucket h (v, ⟨[(c0, st)], rs⟩) = none := by
              unfold TTDBTable.purgeIndexBucket
              simp [if_neg hc0]
            have hdel : dictGet (s.purgeEntries h now).index v = none := by
              rw [hget]
              show Option.map Prod.snd (TTDBTable.purgeIndexBucket h (v, ⟨[(c0, st)], rs⟩)) = none
              rw [hPT]
              rfl
            have hafter : (s.purgeEntries h now).readIndexPure v t = 0 :=
              readIndexPure_eq_zero_of_absent (by rw [entriesAt, hdel]; rfl) t
            have hbefore := readIndexPure_eq_of_entriesAt
              (show entriesAt s.index v = some [(c0, st)] by rw [entriesAt, hg]; rfl) t
            rw [hafter, hbefore]
            by_cases hst : st > t
            · simp [lastLE, hst]
            · have hc00 : c0 = 0 := by
                rcases hcond2 with h1 | h1 <;> omega
              simp [lastLE, hst, hc00]
        · have hcond2 : ((c0, st) :: e2 :: tl2).length ≤ 1
              ∨ (∀ e ∈ (c0, st) :: e2 :: tl2, e.2 ≤ h)
              ∨ (match lastLE t ((c0, st) :: e2 :: tl2) with
                  | some e => h < e.2
                  | none => False) := by
            rw [hg] at hcond
            exact hcond
          have hl2 : ((c0, st) :: e2 :: tl2).length > 1 := by simp
          have hPT : TTDBTable.purgeIndexBucket h (v, ⟨(c0, st) :: e2 :: tl2, rs⟩)
              = some (v, ⟨TTDBTable.purgeBucketEntries h ((c0, st) :: e2 :: tl2), rs⟩) := by
            unfold TTDBTable.purgeIndexBucket
            simp only [if_pos hl2]
          have hga : entriesAt (s.purgeEntries h now).index v
              = some (TTDBTable.purgeBucketEntries h ((c0, st) :: e2 :: tl2)) := by
            rw [entriesAt, hget]
            show Option.map Bucket.entries
              (Option.map Prod.snd (TTDBTable.purgeIndexBucket h
                (v, ⟨(c0, st) :: e2 :: tl2, rs⟩))) = _
            rw [hPT]
            rfl
          have hgb : entriesAt s.index v = some ((c0, st) :: e2 :: tl2) := by
            rw [entriesAt, hg]
            rfl
          rw [readIndexPure_eq_of_entriesAt hga t, readIndexPure_eq_of_entriesAt hgb t]
          have hcondX : (∀ e ∈ (c0, st) :: e2 :: tl2, e.2 ≤ h)
              ∨ (∃ e, lastLE t ((c0, st) :: e2 :: tl2) = some e ∧ h < e.2)
              ∨ ((c0, st) :: e2 :: tl2 = []) := by
            rcases hcond2 with hlen | hall | hvis
            · simp at hlen
            · exact Or.inl hall
            · refine Or.inr (Or.inl ?_)
              cases hl : lastLE t ((c0, st) :: e2 :: tl2) with
              | none => rw [hl] at hvis; exact hvis.elim
              | some e =>
                rw [hl] at hvis
                exact ⟨e, rfl, hvis⟩
          rw [purgeBucketEntries_reads hsorted hht hcondX]

/-- Witness for the amended C3 at a concrete two-entry bucket whose visible
entry at t = 5 survives the horizon 2. -/
theorem ttdb_C3_purge_preservation_amended_witness :
    ((⟨[("k", ⟨[(some "a", 1), (some "b", 5)], 5⟩)], [], false, 0, 0⟩ :
        TTDBTable).purgeEntries 2 100).readValuePure "k" 5
      = (⟨[("k", ⟨[(some "a", 1), (some "b", 5)], 5⟩)], [], false, 0, 0⟩ :
        TTDBTable).readValuePure "k" 5
    ∧ dictGet ((⟨[("k", ⟨[(some "a", 1), (some "b", 5)], 5⟩)], [], false, 0, 0⟩ :
        TTDBTable).purgeEntries 2 100).table "k"
      = some ⟨TTDBTable.purgeBucketEntries 2 [(some "a", 1), (some "b", 5)], 5⟩ := by
  constructor
  · exact ttdb_C3_purge_preservation_amended.2.2.1
      ⟨[("k", ⟨[(some "a", 1), (some "b", 5)], 5⟩)], [], false, 0, 0⟩
      2 100 5 "k" (by decide) (by decide)
      (by unfold DictSorted EntriesSorted; decide) (by decide)
      (Or.inr (Or.inr (show (2 : Nat) < 5 by decide)))
  · exact ttdb_C3_purge_preservation_amended.1
      ⟨[("k", ⟨[(some "a", 1), (some "b", 5)], 5⟩)], [], false, 0, 0⟩
      2 100 "k" ⟨[(some "a", 1), (some "b", 5)], 5⟩
      (by decide) (by decide) (by decide) (by decide)

/-! ### Merge apply-phase lemmas -/

theorem dictGet_insertFold_ne [DecidableEq κ] (ap : Bool) (es : List (α × Nat))
    (dst : Dict κ α) (k0 : κ) {k : κ} (h : k ≠ k0) :
    dictGet (es.foldl (fun a e => insertItem ap a k0 e) dst) k = dictGet dst k := by
  induction es generalizing dst with
  | nil => rfl
  | cons e es ih =>
    rw [List.foldl_cons, ih]
    exact dictGet_insertItem_ne _ _ _ h

theorem dictGet_insertItem_self_isSome [DecidableEq κ] (ap : Bool) (d : Dict κ α)
    (k : κ) (item : α × Nat) : (dictGet (insertItem ap d k item) k).isSome := by
  have := insertItem_readStamp ap d k item
  cases hg : dictGet (insertItem ap d k item) k with
  | none => rw [hg] at this; cases this
  | some b => rfl

theorem dictGet_insertItem_self_congr [DecidableEq κ] {d d2 : Dict κ α} {k : κ}
    (h : dictGet d k = dictGet d2 k) (ap : Bool) (item : α × Nat) :
    dictGet (insertItem ap d k item) k = dictGet (insertItem ap d2 k item) k := by
  unfold insertItem
  rw [h]
  cases dictGet d2 k with
  | none => rw [dictGet_dictSet_self, dictGet_dictSet_self]
  | some b =>
    by_cases hap : ap <;>
      simp only [hap, Bool.false_eq_true, if_false, if_true] <;>
      rw [dictGet_dictSet_self, dictGet_dictSet_self]

theorem dictGet_applyInserts_absent [DecidableEq κ] {src : Dict κ α} {k : κ}
    (ap : Bool) (hnone : dictGet src k = none) (dst : Dict κ α) :
    dictGet (applyInserts ap dst src) k = dictGet dst k := by
  induction src generalizing dst with
  | nil => rfl
  | cons hd tl ih =>
    obtain ⟨k1, b1⟩ := hd
    by_cases hk : k = k1
    · simp [dictGet, hk] at hnone
    · simp only [dictGet, if_neg hk] at hnone
      unfold applyInserts at ih ⊢
      rw [List.foldl_cons, ih hnone]
      exact dictGet_insertFold_ne _ _ _ _ hk

theorem dictGet_applyInserts_single [DecidableEq κ] {src : Dict κ α} (ap : Bool)
    (hnd : (keysOf src).Nodup) {k : κ} {b : Bucket α} {x : α} {T : Nat}
    (hb : dictGet src k = some b) (hbe : b.entries = [(x, T)]) (dst : Dict κ α) :
    dictGet (applyInserts ap dst src) k = dictGet (insertItem ap dst k (x, T)) k := by
  induction src generalizing dst with
  | nil => cases hb
  | cons hd tl ih =>
    obtain ⟨k1, b1⟩ := hd
    simp only [keysOf, List.map_cons, List.nodup_cons] at hnd
    by_cases hk : k = k1
    · subst hk
      have hbb : b1 = b := by simpa [dictGet] using hb
      subst hbb
      have htl : dictGet tl k = none :=
        dictGet_eq_none_iff.mpr (fun hmem => hnd.1 hmem)
      unfold applyInserts
      rw [List.foldl_cons, hbe]
      have hfold : (List.foldl (fun a e => insertItem ap a k e) dst [(x, T)])
          = insertItem ap dst k (x, T) := rfl
      rw [hfold]
      exact dictGet_applyInserts_absent ap htl _
    · simp only [dictGet, if_neg hk] at hb
      unfold applyInserts at ih ⊢
      rw [List.foldl_cons, ih hnd.2 hb]
      exact dictGet_insertItem_self_congr (dictGet_insertFold_ne _ _ _ _ hk) ap _

theorem keysOf_insertFold_present [DecidableEq κ] (ap : Bool)
    (es : List (α × Nat)) {dst : Dict κ α} {k0 : κ}
    (h : (dictGet dst k0).isSome) :
    keysOf (es.foldl (fun a e => insertItem ap a k0 e) dst) = keysOf dst := by
  induction es generalizing dst with
  | nil => rfl
  | cons e es ih =>
    rw [List.foldl_cons]
    obtain ⟨b, hb⟩ := Option.isSome_iff_exists.mp h
    rw [ih (dictGet_insertItem_self_isSome ap dst k0 e)]
    exact keysOf_insertItem_present hb ap e

theorem keysOf_insertFold_absent [DecidableEq κ] (ap : Bool)
    {es : List (α × Nat)} {dst : Dict κ α} {k0 : κ}
    (h : dictGet dst k0 = none) (hne : es ≠ []) :
    keysOf (es.foldl (fun a e => insertItem ap a k0 e) dst)
      = keysOf dst ++ [k0] := by
  cases es with
  | nil => exact absurd rfl hne
  | cons e es =>
    rw [List.foldl_cons]
    rw [keysOf_insertFold_present ap es (dictGet_insertItem_self_isSome ap dst k0 e)]
    rw [insertItem_absent h ap e]
    simp [keysOf]

theorem dictGet_insertFold_self_isSome [DecidableEq κ] (ap : Bool)
    (es : List (α × Nat)) {dst : Dict κ α} {k0 : κ}
    (h : (dictGet dst k0).isSome) :
    (dictGet (es.foldl (fun a e => insertItem ap a k0 e) dst) k0).isSome := by
  induction es generalizing dst with
  | nil => exact h
  | cons e es ih =>
    rw [List.foldl_cons]
    exact ih (dictGet_insertItem_self_isSome ap dst k0 e)

theorem applyInserts_keys [DecidableEq κ] (ap : Bool) (src : Dict κ α) :
    ∀ dst : Dict κ α, ∃ ks : List κ,
      keysOf (applyInserts ap dst src) = keysOf dst ++ ks
      ∧ ks.Nodup ∧ ∀ x ∈ ks, dictGet dst x = none ∧ x ∈ keysOf src := by
  induction src with
  | nil => exact fun dst => ⟨[], by simp [applyInserts], List.nodup_nil, by simp⟩
  | cons hd tl ih =>
    intro dst
    obtain ⟨k1, b1⟩ := hd
    have hstep : applyInserts ap dst ((k1, b1) :: tl)
        = applyInserts ap (b1.entries.foldl (fun a e => insertItem ap a k1 e) dst) tl := by
      unfold applyInserts
      rw [List.foldl_cons]
    obtain ⟨ks, hks, hksnd, hksmem⟩ :=
      ih (b1.entries.foldl (fun a e => insertItem ap a k1 e) dst)
    by_cases hcase : (dictGet dst k1).isSome ∨ b1.entries = []
    · have hkeys : keysOf (b1.entries.foldl (fun a e => insertItem ap a k1 e) dst)
          = keysOf dst := by
        rcases hcase with hp | hnil
        · exact keysOf_insertFold_present ap _ hp
        · rw [hnil]
          rfl
      refine ⟨ks, by rw [hstep, hks, hkeys], hksnd, ?_⟩
      intro x hx
      obtain ⟨hx1, hx2⟩ := hksmem x hx
      constructor
      · by_cases hxk : x = k1
        · subst hxk
          rcases hcase with hp | hnil
          · exfalso
            have hsome := dictGet_insertFold_self_isSome ap b1.entries hp
            rw [hx1] at hsome
            cases hsome
          · rw [hnil] at hx1
            exact hx1
        · rw [← hx1]
          exact (dictGet_insertFold_ne ap b1.entries dst k1 hxk).symm
      · exact List.mem_cons_of_mem _ (by simpa [keysOf] using hx2)
    · push_neg at hcase
      obtain ⟨hnone, hne⟩ := hcase
      have hnone2 : dictGet dst k1 = none := by
        cases hg : dictGet dst k1 with
        | none => rfl
        | some b => rw [hg] at hnone; simp at hnone
      have hkeys := keysOf_insertFold_absent ap hnone2 hne
      refine ⟨k1 :: ks, ?_, ?_, ?_⟩
      · rw [hstep, hks, hkeys, List.append_assoc]
        rfl
      · rw [List.nodup_cons]
        refine ⟨?_, hksnd⟩
        intro hk1
        obtain ⟨hx1, _⟩ := hksmem k1 hk1
        have hmem2 : k1 ∈ keysOf (b1.entries.foldl (fun a e => insertItem ap a k1 e) dst) := by
          rw [hkeys]
          simp
        exact (dictGet_eq_none_iff.mp hx1) hmem2
      · intro x hx
        rcases List.mem_cons.mp hx with h1 | h1
        · subst h1
          exact ⟨hnone2, by simp [keysOf]⟩
        · obtain ⟨hx1, hx2⟩ := hksmem x h1
          have hxk : x ≠ k1 := by
            intro hh
            subst hh
            have hmem2 : x ∈ keysOf (b1.entries.foldl (fun a e => insertItem ap a x e) dst) := by
              rw [hkeys]
              simp
            exact (dictGet_eq_none_iff.mp hx1) hmem2
          refine ⟨?_, List.mem_cons_of_mem _ (by simpa [keysOf] using hx2)⟩
          rw [← hx1]
          exact (dictGet_insertFold_ne ap b1.entries dst k1 hxk).symm

/-! ### Commit merge: validation outcome and scope-shape preservation -/

theorem update_snd_of_fst_false (s : TTDBTable) (tb : Dict String (Option String))
    (ix : Dict String Int) (h : (s.update tb ix).1 = false) :
    (s.update tb ix).2 = s := by
  unfold TTDBTable.update at *
  by_cases h1 : anyConflict s.table tb
  · simp [h1]
  · by_cases h2 : anyConflict s.index ix
    · simp [h1, h2]
    · simp [h1, h2] at h

theorem update_snd_of_fst_true (s : TTDBTable) (tb : Dict String (Option String))
    (ix : Dict String Int) (h : (s.update tb ix).1 = true) :
    (s.update tb ix).2 =
      { s with table := applyInserts s.autopurge s.table tb,
               index := applyInserts s.autopurge s.index ix } := by
  unfold TTDBTable.update at *
  by_cases h1 : anyConflict s.table tb
  · simp [h1] at h
  · by_cases h2 : anyConflict s.index ix
    · simp [h1, h2] at h
    · simp [h1, h2]

theorem dictGet_applyInserts_scope [DecidableEq κ] {T : Nat} {dst src : Dict κ α}
    (hdst : ScopeDict T dst) (hsrc : ScopeDict T src) (k : κ) :
    dictGet (applyInserts true dst src) k =
      match dictGet src k with
      | some b => some ⟨b.entries, T⟩
      | none => dictGet dst k := by
  cases hg : dictGet src k with
  | none => exact dictGet_applyInserts_absent true hg dst
  | some b =>
    show dictGet (applyInserts true dst src) k = some ⟨b.entries, T⟩
    obtain ⟨y, hbe⟩ := hsrc.2 (k, b) (dictGet_mem hg)
    have hbe2 : b.entries = [(y, T)] := hbe
    rw [dictGet_applyInserts_single true hsrc.1 hg hbe2 dst]
    cases hg0 : dictGet dst k with
    | none =>
      rw [insertItem_absent hg0, dictGet_append_of_none hg0]
      simp [dictGet, hbe2]
    | some b0 =>
      obtain ⟨z, hb0e⟩ := hdst.2 (k, b0) (dictGet_mem hg0)
      have hb0e2 : b0.entries = [(z, T)] := hb0e
      rw [insertItem_scope hg0 hb0e2 y, dictGet_dictSet_self, hbe2]

theorem ScopeDict_applyInserts [DecidableEq κ] {T : Nat} {dst src : Dict κ α}
    (hdst : ScopeDict T dst) (hsrc : ScopeDict T src) :
    ScopeDict T (applyInserts true dst src) := by
  obtain ⟨ks, hks, hknd, hkmem⟩ := applyInserts_keys true src dst
  have hnd : (keysOf (applyInserts true dst src)).Nodup := by
    rw [hks]
    exact List.Nodup.append hdst.1 hknd
      (fun a ha hb => (dictGet_eq_none_iff.mp (hkmem a hb).1) ha)
  refine ⟨hnd, ?_⟩
  intro kv hkv
  have hget := mem_dictGet_of_nodup hnd hkv
  rw [dictGet_applyInserts_scope hdst hsrc] at hget
  cases hg : dictGet src kv.1 with
  | some b =>
    rw [hg] at hget
    obtain ⟨y, hbe⟩ := hsrc.2 (kv.1, b) (dictGet_mem hg)
    have hget2 : (⟨b.entries, T⟩ : Bucket α) = kv.2 := Option.some.inj hget
    exact ⟨y, by rw [← hget2]; simpa using hbe⟩
  | none =>
    rw [hg] at hget
    have hget2 : dictGet dst kv.1 = some kv.2 := hget
    exact hdst.2 (kv.1, kv.2) (dictGet_mem hget2)

theorem scopeValD_applyInserts {T : Nat} {dst src : Dict String (Option String)}
    (hdst : ScopeDict T dst) (hsrc : ScopeDict T src) (k : String) :
    scopeValD (applyInserts true dst src) k =
      match scopeValD src k with
      | some x => some x
      | none => scopeValD dst k := by
  unfold scopeValD
  rw [dictGet_applyInserts_scope hdst hsrc]
  cases hg : dictGet src k with
  | none => rfl
  | some b =>
    obtain ⟨y, hbe⟩ := hsrc.2 (k, b) (dictGet_mem hg)
    have hbe2 : b.entries = [(y, T)] := hbe
    simp [hbe2]

theorem ScopeStore_update {T : Nat} {s1 s2 : TTDBTable}
    (h1 : ScopeStore T s1) (h2 : ScopeStore T s2)
    (hs : (s2.update s1.table s1.index).1 = true) :
    ScopeStore T (s2.update s1.table s1.index).2 ∧
      ∀ k, scopeVal (s2.update s1.table s1.index).2 k =
        match scopeVal s1 k with
        | some x => some x
        | none => scopeVal s2 k := by
  rw [update_snd_of_fst_true _ _ _ hs, h2.1]
  refine ⟨⟨rfl, ScopeDict_applyInserts h2.2.1 h1.2.1,
    ScopeDict_applyInserts h2.2.2 h1.2.2⟩, ?_⟩
  intro k
  exact scopeValD_applyInserts h2.2.1 h1.2.1 k

/-! ### Merging a scope into a bounded root dictionary -/


theorem dictGet_applyInserts_root [DecidableEq κ] {T c : Nat} {dst src : Dict κ α}
    (hle : DictLE c dst) (hcT : c < T) (hsrc : ScopeDict T src) (k : κ) :
    dictGet (applyInserts false dst src) k =
      match dictGet src k with
      | some b => some ⟨(entriesAt dst k).getD [] ++ b.entries, T⟩
      | none => dictGet dst k := by
  cases hg : dictGet src k with
  | none => exact dictGet_applyInserts_absent false hg dst
  | some b =>
    show dictGet (applyInserts false dst src) k
        = some ⟨(entriesAt dst k).getD [] ++ b.entries, T⟩
    obtain ⟨y, hbe⟩ := hsrc.2 (k, b) (dictGet_mem hg)
    have hbe2 : b.entries = [(y, T)] := hbe
    rw [dictGet_applyInserts_single false hsrc.1 hg hbe2 dst]
    cases hg0 : dictGet dst k with
    | none =>
      rw [insertItem_absent hg0, dictGet_append_of_none hg0]
      simp [dictGet, entriesAt, hg0, hbe2]
    | some b0 =>
      have hle0 : EntriesLE c b0.entries := hle (k, b0) (dictGet_mem hg0)
      rw [insertItem_present_fresh hg0 hle0 hcT y, dictGet_dictSet_self]
      simp [entriesAt, hg0, hbe2]

theorem readVal_applyInserts_root {T c : Nat} {tb src : Dict String (Option String)}
    (hle : DictLE c tb) (hcT : c < T) (hsrc : ScopeDict T src)
    (k : String) (u : Nat) (hu : T ≤ u) :
    readVal (applyInserts false tb src) k u =
      match scopeValD src k with
      | some x => x
      | none => readVal tb k u := by
  have hroot := dictGet_applyInserts_root hle hcT hsrc k
  unfold readVal scopeValD
  rw [hroot]
  cases hg : dictGet src k with
  | none => rfl
  | some b =>
    obtain ⟨y, hbe⟩ := hsrc.2 (k, b) (dictGet_mem hg)
    have hbe2 : b.entries = [(y, T)] := hbe
    have hold : EntriesLE c ((entriesAt tb k).getD []) := entriesAt_getD_le hle k
    have hlast : lastLE u ((entriesAt tb k).getD [] ++ [(y, T)]) = some (y, T) := by
      rw [lastLE_append_single y hold hcT u]
      simp [hu]
    simp [hbe2, hlast]

/-! ### The commit chain: failure leaves the root untouched, success makes
every scope's writes visible -/

theorem commitChain_fst_false_aux : ∀ (n : Nat) (scopes : List TTDBTable)
    (root : TTDBTable), scopes.length ≤ n →
    (commitChain scopes root).1 = false → (commitChain scopes root).2 = root := by
  intro n
  induction n with
  | zero =>
    intro scopes root hlen hf
    have hnil : scopes = [] := List.length_eq_zero.mp (Nat.le_zero.mp hlen)
    subst hnil
    simp [commitChain] at hf
  | succ n ih =>
    intro scopes root hlen hf
    rcases scopes with _ | ⟨s, rest1⟩
    · simp [commitChain] at hf
    rcases rest1 with _ | ⟨s2, rest⟩
    · have he : commitChain [s] root = root.update s.table s.index := by
        simp [commitChain]
      rw [he] at hf ⊢
      exact update_snd_of_fst_false _ _ _ hf
    · cases hb : (s2.update s.table s.index).1 with
      | false =>
        have he : commitChain (s :: s2 :: rest) root = (false, root) := by
          simp [commitChain, hb]
        rw [he]
      | true =>
        have he : commitChain (s :: s2 :: rest) root
            = commitChain ((s2.update s.table s.index).2 :: rest) root := by
          simp [commitChain, hb]
        rw [he] at hf ⊢
        have hlen2 : ((s2.update s.table s.index).2 :: rest).length ≤ n := by
          simp at hlen ⊢
          omega
        exact ih _ root hlen2 hf

theorem chainVal_cons_merge {s1 s2 m : TTDBTable}
    (hm : ∀ k, scopeVal m k = match scopeVal s1 k with
      | some x => some x
      | none => scopeVal s2 k) (rest : List TTDBTable) (k : String) :
    chainVal (m :: rest) k = chainVal (s1 :: s2 :: rest) k := by
  simp only [chainVal]
  rw [hm k]
  cases scopeVal s1 k with
  | some x => rfl
  | none => cases scopeVal s2 k <;> rfl

theorem commitChain_visible_aux : ∀ (n : Nat) (scopes : List TTDBTable)
    (root : TTDBTable) (c T : Nat), scopes.length ≤ n →
    root.autopurge = false → DictLE c root.table → c < T →
    (∀ x ∈ scopes, ScopeStore T x) →
    (commitChain scopes root).1 = true →
    ∀ (k : String) (u : Nat), T ≤ u →
      (commitChain scopes root).2.readValuePure k u =
        match chainVal scopes k with
        | some x => x
        | none => root.readValuePure k u := by
  intro n
  induction n with
  | zero =>
    intro scopes root c T hlen hap hle hcT hsc hsucc k u hu
    have hnil : scopes = [] := List.length_eq_zero.mp (Nat.le_zero.mp hlen)
    subst hnil
    simp [commitChain, chainVal]
  | succ n ih =>
    intro scopes root c T hlen hap hle hcT hsc hsucc k u hu
    rcases scopes with _ | ⟨s, rest1⟩
    · simp [commitChain, chainVal]
    rcases rest1 with _ | ⟨s2, rest⟩
    · have he : commitChain [s] root = root.update s.table s.index := by
        simp [commitChain]
      rw [he] at hsucc ⊢
      have hs1 : ScopeStore T s := hsc s (List.mem_singleton_self s)
      have hbridge : (root.update s.table s.index).2.readValuePure k u
          = readVal (applyInserts false root.table s.table) k u := by
        rw [update_snd_of_fst_true _ _ _ hsucc, hap]
        rfl
      rw [hbridge, readVal_applyInserts_root hle hcT hs1.2.1 k u hu]
      have hsv : scopeVal s k = scopeValD s.table k := rfl
      rw [← hsv]
      simp only [chainVal]
      cases hg : scopeVal s k <;> rfl
    · cases hb : (s2.update s.table s.index).1 with
      | false =>
        exfalso
        have he : (commitChain (s :: s2 :: rest) root).1 = false := by
          simp [commitChain, hb]
        rw [hsucc] at he
        cases he
      | true =>
        have hm := ScopeStore_update (hsc s (by simp)) (hsc s2 (by simp)) hb
        have he : commitChain (s :: s2 :: rest) root
            = commitChain ((s2.update s.table s.index).2 :: rest) root := by
          simp [commitChain, hb]
        rw [he] at hsucc ⊢
        have hsc2 : ∀ x ∈ (s2.update s.table s.index).2 :: rest, ScopeStore T x := by
          intro x hx
          rcases List.mem_cons.mp hx with h1 | h1
          · subst h1
            exact hm.1
          · exact hsc x (List.mem_cons_of_mem _ (List.mem_cons_of_mem _ h1))
        have hlen2 : ((s2.update s.table s.index).2 :: rest).length ≤ n := by
          simp at hlen ⊢
          omega
        rw [ih _ root c T hlen2 hap hle hcT hsc2 hsucc k u hu]
        rw [chainVal_cons_merge hm.2 rest k]

/-- C1: Commit-or-nothing.  (a) A failed `COMMIT` of a nested scope chain
leaves the root store — table and index alike — unchanged.  (b) A failed merge
(`TTDBTable.__update`) leaves the parent store unchanged: every key of both
the incoming table and the incoming index is validated before any insertion
is applied.  (c) A child scope's conflict propagates without this scope ever
calling merge on its parent: the chain stops at the first failing merge with
the root as it was.  (d) A successful `COMMIT` of a nested stack of scopes
stamped `T` makes every write of every scope visible in the root atomically:
any subsequent read of any key at any time `u ≥ T` returns the innermost
scope's value for that key, and the root's own prior value for a key no scope
wrote. -/
theorem ttdb_C1_commit_or_nothing :
    (∀ (scopes : List TTDBTable) (root : TTDBTable),
      (commitChain scopes root).1 = false → (commitChain scopes root).2 = root)
    ∧ (∀ (s : TTDBTable) (tb : Dict String (Option String)) (ix : Dict String Int),
      (s.update tb ix).1 = false → (s.update tb ix).2 = s)
    ∧ (∀ (s s2 : TTDBTable) (rest : List TTDBTable) (root : TTDBTable),
      (s2.update s.table s.index).1 = false →
      commitChain (s :: s2 :: rest) root = (false, root))
    ∧ (∀ (scopes : List TTDBTable) (root : TTDBTable) (c T : Nat),
      root.autopurge = false → DictLE c root.table → c < T →
      (∀ x ∈ scopes, ScopeStore T x) →
      (commitChain scopes root).1 = true →
      ∀ (k : String) (u : Nat), T ≤ u →
        (commitChain scopes root).2.readValuePure k u =
          match chainVal scopes k with
          | some x => x
          | none => root.readValuePure k u) := by
  refine ⟨?_, ?_, ?_, ?_⟩
  · intro scopes root hf
    exact commitChain_fst_false_aux scopes.length scopes root (le_refl _) hf
  · intro s tb ix hf
    exact update_snd_of_fst_false s tb ix hf
  · intro s s2 rest root hf
    simp [commitChain, hf]
  · intro scopes root c T hap hle hcT hsc hsucc k u hu
    exact commitChain_visible_aux scopes.length scopes root c T (le_refl _)
      hap hle hcT hsc hsucc k u hu

theorem ttdb_C1_commit_or_nothing_witness :
    (commitChain [⟨[("a", ⟨[(some "1", 5)], 5⟩)], [("1", ⟨[(1, 5)], 5⟩)], true, 0, 0⟩]
        (mkTable false 0 0)).2.readValuePure "a" 5 = some "1" := by
  have h := ttdb_C1_commit_or_nothing.2.2.2
    [⟨[("a", ⟨[(some "1", 5)], 5⟩)], [("1", ⟨[(1, 5)], 5⟩)], true, 0, 0⟩]
    (mkTable false 0 0) 0 5 rfl (by intro kv hkv; simp [mkTable] at hkv) (by decide)
    (by
      intro x hx
      rw [List.mem_singleton] at hx
      subst hx
      exact ⟨rfl,
        ⟨by decide, by
          intro kv hkv
          rw [List.mem_singleton] at hkv
          subst hkv
          exact ⟨some "1", rfl⟩⟩,
        ⟨by decide, by
          intro kv hkv
          rw [List.mem_singleton] at hkv
          subst hkv
          exact ⟨1, rfl⟩⟩⟩)
    (by simp only [commitChain]; decide) "a" 5 (by decide)
  rw [h]
  rfl

/-! ### Well-formedness transfer lemmas -/

theorem DictWF_mono [DecidableEq κ] {d : Dict κ α} {c c2 : Nat}
    (h : DictWF c d) (hc : c ≤ c2) : DictWF c2 d :=
  ⟨h.1, h.2.1, fun kv hkv => EntriesLE.mono (h.2.2 kv hkv) hc⟩

theorem StoreWF_mono {s : TTDBTable} {c c2 : Nat}
    (h : StoreWF s c) (hc : c ≤ c2) : StoreWF s c2 :=
  ⟨DictWF_mono h.1 hc, DictWF_mono h.2 hc⟩

theorem EntriesSorted_append_single {es : List (α × Nat)} {c t : Nat}
    (hs : EntriesSorted es) (hle : EntriesLE c es) (hct : c < t) (v : α) :
    EntriesSorted (es ++ [(v, t)]) := by
  unfold EntriesSorted at *
  refine List.pairwise_append.mpr ⟨hs, by simp, ?_⟩
  intro a ha b hb
  rw [List.mem_singleton] at hb
  subst hb
  exact lt_of_le_of_lt (hle a ha) hct

theorem DictWF_of_shape [DecidableEq κ] {d d2 : Dict κ α} {c t : Nat}
    (hct : c < t) (hwf : DictWF c d)
    (hkeys : ∃ ks : List κ, keysOf d2 = keysOf d ++ ks ∧ ks.Nodup ∧
      ∀ x ∈ ks, dictGet d x = none)
    (hshape : ∀ k, entriesAt d2 k = entriesAt d k ∨
      ∃ n : α, entriesAt d2 k = some ((entriesAt d k).getD [] ++ [(n, t)])) :
    DictWF t d2 := by
  obtain ⟨ks, hks, hknd, hkmem⟩ := hkeys
  have hnd : (keysOf d2).Nodup := by
    rw [hks]
    exact List.Nodup.append hwf.1 hknd
      (fun a ha hb => (dictGet_eq_none_iff.mp (hkmem a hb)) ha)
  have hold_s : ∀ k, EntriesSorted ((entriesAt d k).getD []) := by
    intro k
    cases hg : dictGet d k with
    | none => simp [entriesAt, hg, EntriesSorted]
    | some b =>
      have hgd : (entriesAt d k).getD [] = b.entries := by simp [entriesAt, hg]
      rw [hgd]
      exact hwf.2.1 (k, b) (dictGet_mem hg)
  have hold_le : ∀ k, EntriesLE c ((entriesAt d k).getD []) :=
    entriesAt_getD_le hwf.2.2
  refine ⟨hnd, ?_, ?_⟩
  · intro kv hkv
    have hget := mem_dictGet_of_nodup hnd hkv
    have hent : entriesAt d2 kv.1 = some kv.2.entries := by
      rw [entriesAt, hget]
      rfl
    rcases hshape kv.1 with h1 | ⟨n, h1⟩
    · rw [h1] at hent
      exact entriesAt_of_DictSorted hwf.2.1 hent
    · rw [h1] at hent
      have he : kv.2.entries = (entriesAt d kv.1).getD [] ++ [(n, t)] :=
        (Option.some.inj hent).symm
      rw [he]
      exact EntriesSorted_append_single (hold_s kv.1) (hold_le kv.1) hct n
  · intro kv hkv
    have hget := mem_dictGet_of_nodup hnd hkv
    have hent : entriesAt d2 kv.1 = some kv.2.entries := by
      rw [entriesAt, hget]
      rfl
    rcases hshape kv.1 with h1 | ⟨n, h1⟩
    · rw [h1] at hent
      exact EntriesLE.mono (entriesAt_of_DictLE hwf.2.2 hent) (le_of_lt hct)
    · rw [h1] at hent
      have he : kv.2.entries = (entriesAt d kv.1).getD [] ++ [(n, t)] :=
        (Option.some.inj hent).symm
      rw [he]
      intro e hel
      rcases List.mem_append.mp hel with h2 | h2
      · exact le_of_lt (lt_of_le_of_lt (hold_le kv.1 e h2) hct)
      · rw [List.mem_singleton] at h2
        subst h2
        exact le_refl t

theorem DictWF_congr [DecidableEq κ] {d d2 : Dict κ α} {c : Nat}
    (hwf : DictWF c d) (hkeys : keysOf d2 = keysOf d)
    (hent : ∀ k, entriesAt d2 k = entriesAt d k) : DictWF c d2 := by
  have hnd : (keysOf d2).Nodup := hkeys ▸ hwf.1
  refine ⟨hnd, ?_, ?_⟩
  · intro kv hkv
    have hget := mem_dictGet_of_nodup hnd hkv
    have h2 : entriesAt d kv.1 = some kv.2.entries := by
      rw [← hent kv.1, entriesAt, hget]
      rfl
    exact entriesAt_of_DictSorted hwf.2.1 h2
  · intro kv hkv
    have hget := mem_dictGet_of_nodup hnd hkv
    have h2 : entriesAt d kv.1 = some kv.2.entries := by
      rw [← hent kv.1, entriesAt, hget]
      rfl
    exact entriesAt_of_DictLE hwf.2.2 h2

theorem DictWF_applyInserts_root [DecidableEq κ] {c T : Nat} {dst src : Dict κ α}
    (hwf : DictWF c dst) (hcT : c < T) (hsrc : ScopeDict T src) :
    DictWF T (applyInserts false dst src) := by
  refine DictWF_of_shape hcT hwf ?_ ?_
  · obtain ⟨ks, hks, hknd, hkmem⟩ := applyInserts_keys false src dst
    exact ⟨ks, hks, hknd, fun x hx => (hkmem x hx).1⟩
  · intro k
    have hroot := dictGet_applyInserts_root hwf.2.2 hcT hsrc k
    cases hg : dictGet src k with
    | none =>
      left
      rw [hg] at hroot
      have hroot2 : dictGet (applyInserts false dst src) k = dictGet dst k := hroot
      simp [entriesAt, hroot2]
    | some b =>
      right
      obtain ⟨y, hbe⟩ := hsrc.2 (k, b) (dictGet_mem hg)
      have hbe2 : b.entries = [(y, T)] := hbe
      rw [hg] at hroot
      have hroot2 : dictGet (applyInserts false dst src) k
          = some ⟨(entriesAt dst k).getD [] ++ b.entries, T⟩ := hroot
      exact ⟨y, by simp [entriesAt, hroot2, hbe2]⟩

theorem commitChain_wf_aux : ∀ (n : Nat) (scopes : List TTDBTable)
    (root : TTDBTable) (c T : Nat), scopes.length ≤ n →
    root.autopurge = false → StoreWF root c → c < T →
    (∀ x ∈ scopes, ScopeStore T x) →
    StoreWF (commitChain scopes root).2 T ∧
      (commitChain scopes root).2.autopurge = false := by
  intro n
  induction n with
  | zero =>
    intro scopes root c T hlen hap hwf hcT hsc
    have hnil : scopes = [] := List.length_eq_zero.mp (Nat.le_zero.mp hlen)
    subst hnil
    have he : commitChain [] root = (true, root) := by simp [commitChain]
    rw [he]
    exact ⟨StoreWF_mono hwf (le_of_lt hcT), hap⟩
  | succ n ih =>
    intro scopes root c T hlen hap hwf hcT hsc
    rcases scopes with _ | ⟨s, rest1⟩
    · have he : commitChain [] root = (true, root) := by simp [commitChain]
      rw [he]
      exact ⟨StoreWF_mono hwf (le_of_lt hcT), hap⟩
    rcases rest1 with _ | ⟨s2, rest⟩
    · have he : commitChain [s] root = root.update s.table s.index := by
        simp [commitChain]
      rw [he]
      have hs1 : ScopeStore T s := hsc s (List.mem_singleton_self s)
      cases hb : (root.update s.table s.index).1 with
      | false =>
        rw [update_snd_of_fst_false _ _ _ hb]
        exact ⟨StoreWF_mono hwf (le_of_lt hcT), hap⟩
      | true =>
        rw [update_snd_of_fst_true _ _ _ hb, hap]
        exact ⟨⟨DictWF_applyInserts_root hwf.1 hcT hs1.2.1,
          DictWF_applyInserts_root hwf.2 hcT hs1.2.2⟩, rfl⟩
    · cases hb : (s2.update s.table s.index).1 with
      | false =>
        have he : commitChain (s :: s2 :: rest) root = (false, root) := by
          simp [commitChain, hb]
        rw [he]
        exact ⟨StoreWF_mono hwf (le_of_lt hcT), hap⟩
      | true =>
        have hm := ScopeStore_update (hsc s (by simp)) (hsc s2 (by simp)) hb
        have he : commitChain (s :: s2 :: rest) root
            = commitChain ((s2.update s.table s.index).2 :: rest) root := by
          simp [commitChain, hb]
        rw [he]
        have hsc2 : ∀ x ∈ (s2.update s.table s.index).2 :: rest, ScopeStore T x := by
          intro x hx
          rcases List.mem_cons.mp hx with h1 | h1
          · subst h1
            exact hm.1
          · exact hsc x (List.mem_cons_of_mem _ (List.mem_cons_of_mem _ h1))
        have hlen2 : ((s2.update s.table s.index).2 :: rest).length ≤ n := by
          simp at hlen ⊢
          omega
        exact ih _ root c T hlen2 hap hwf hcT hsc2

/-! ### Well-formedness of each root operation -/

theorem writeValueRoot_table_shape {s : TTDBTable} {c t : Nat} {k : String}
    {v : Option String} (hap : s.autopurge = false) (hlt : DictLE c s.table)
    (hc : c < t) (w : String) :
    entriesAt (s.writeValueRoot k v t).table w = entriesAt s.table w ∨
    ∃ x : Option String, entriesAt (s.writeValueRoot k v t).table w
      = some ((entriesAt s.table w).getD [] ++ [(x, t)]) := by
  by_cases hw : w = k
  · subst hw
    right
    exact ⟨v, writeValueRoot_table_self hap
      (fun es he => entriesAt_of_DictLE hlt he) hc v⟩
  · left
    exact writeValueRoot_table_ne s k v t hw

theorem writeValueRoot_index_shape {s : TTDBTable} {c t : Nat} {k : String}
    {v : Option String} (hap : s.autopurge = false) (hli : DictLE c s.index)
    (hc : c < t) (w : String) :
    entriesAt (s.writeValueRoot k v t).index w = entriesAt s.index w ∨
    ∃ n : Int, entriesAt (s.writeValueRoot k v t).index w
      = some ((entriesAt s.index w).getD [] ++ [(n, t)]) := by
  by_cases hov : s.readValuePure k t = v
  · left
    rw [writeValueRoot_index_eq_old s k v t hov]
  · by_cases hw1 : s.readValuePure k t = some w
    · right
      exact ⟨s.readIndexPure w t - 1,
        writeValueRoot_index_dec hap hli hc hw1 (fun hh => hov (hw1.trans hh.symm))⟩
    · by_cases hw2 : v = some w
      · right
        exact ⟨s.readIndexPure w t + 1,
          writeValueRoot_index_inc hap hli hc hw2 hov⟩
      · left
        exact writeValueRoot_index_ne s k v t hw1 hw2

theorem writeValueRoot_table_keys_ex (s : TTDBTable) (k : String)
    (v : Option String) (t : Nat) :
    ∃ ks : List String, keysOf (s.writeValueRoot k v t).table
      = keysOf s.table ++ ks ∧ ks.Nodup ∧ ∀ x ∈ ks, dictGet s.table x = none := by
  rw [writeValueRoot_table_keys]
  cases hg : dictGet s.table k with
  | some b => exact ⟨[], by simp [hg], List.nodup_nil, by simp⟩
  | none =>
    refine ⟨[k], by simp [hg], List.nodup_singleton _, ?_⟩
    intro x hx
    rw [List.mem_singleton] at hx
    subst hx
    exact hg

theorem StoreWF_writeValueRoot {s : TTDBTable} {c t : Nat}
    (hap : s.autopurge = false) (hwf : StoreWF s c) (hc : c < t)
    (k : String) (v : Option String) :
    StoreWF (s.writeValueRoot k v t) t := by
  refine ⟨?_, ?_⟩
  · refine DictWF_of_shape hc hwf.1 (writeValueRoot_table_keys_ex s k v t) ?_
    exact fun w => writeValueRoot_table_shape hap hwf.1.2.2 hc w
  · refine DictWF_of_shape hc hwf.2 (writeValueRoot_index_keys s k v t) ?_
    exact fun w => writeValueRoot_index_shape hap hwf.2.2.2 hc w

theorem StoreWF_readValueRootSt {s : TTDBTable} {c : Nat} (hwf : StoreWF s c)
    (k : String) (t : Nat) : StoreWF (s.readValueRootSt k t).2 c := by
  rw [readValueRootSt_snd]
  exact ⟨DictWF_congr hwf.1 (readItemSt_snd_keys s.table k t)
    (fun w => readItemSt_snd_entriesAt s.table k t w), hwf.2⟩

theorem StoreWF_readIndexRootSt {s : TTDBTable} {c : Nat} (hwf : StoreWF s c)
    (v : String) (t : Nat) : StoreWF (s.readIndexRootSt v t).2 c := by
  rw [readIndexRootSt_snd]
  exact ⟨hwf.1, DictWF_congr hwf.2 (readItemSt_snd_keys s.index v t)
    (fun w => readItemSt_snd_entriesAt s.index v t w)⟩

theorem purgeBucketEntries_sublist (t : Nat) (es : List (α × Nat)) :
    List.Sublist (TTDBTable.purgeBucketEntries t es) es := by
  simp only [TTDBTable.purgeBucketEntries]
  split
  · exact List.filter_sublist es
  · exact List.drop_sublist _ _

theorem EntriesSorted_sublist {es es2 : List (α × Nat)} (h : EntriesSorted es)
    (hsub : List.Sublist es2 es) : EntriesSorted es2 :=
  List.Pairwise.sublist hsub h

theorem EntriesLE_sublist {es es2 : List (α × Nat)} {c : Nat}
    (h : EntriesLE c es) (hsub : List.Sublist es2 es) : EntriesLE c es2 :=
  fun e he => h e (hsub.subset he)

theorem purgeTableBucket_sublist {t : Nat} {kv r : String × Bucket (Option String)}
    (h : TTDBTable.purgeTableBucket t kv = some r) :
    List.Sublist r.2.entries kv.2.entries := by
  unfold TTDBTable.purgeTableBucket at h
  split at h
  · rw [← Option.some.inj h]
  · cases h
  · rw [← Option.some.inj h]
    exact purgeBucketEntries_sublist t _

theorem purgeIndexBucket_sublist {t : Nat} {kv r : String × Bucket Int}
    (h : TTDBTable.purgeIndexBucket t kv = some r) :
    List.Sublist r.2.entries kv.2.entries := by
  unfold TTDBTable.purgeIndexBucket at h
  split at h
  · split at h
    · rw [← Option.some.inj h]
    · cases h
  · split at h
    · rw [← Option.some.inj h]
      exact purgeBucketEntries_sublist t _
    · rw [← Option.some.inj h]

theorem DictWF_filterMap_purge [DecidableEq κ]
    {f : κ × Bucket α → Option (κ × Bucket α)} {c : Nat} {d : Dict κ α}
    (hkey : ∀ kv r, f kv = some r → r.1 = kv.1)
    (hsub : ∀ kv r, f kv = some r → List.Sublist r.2.entries kv.2.entries)
    (hwf : DictWF c d) : DictWF c (d.filterMap f) := by
  refine ⟨List.Nodup.sublist (keysOf_filterMap_sublist hkey d) hwf.1, ?_, ?_⟩
  · intro kv hkv
    obtain ⟨kv0, hkv0, hf⟩ := List.mem_filterMap.mp hkv
    exact EntriesSorted_sublist (hwf.2.1 kv0 hkv0) (hsub kv0 kv hf)
  · intro kv hkv
    obtain ⟨kv0, hkv0, hf⟩ := List.mem_filterMap.mp hkv
    exact EntriesLE_sublist (hwf.2.2 kv0 hkv0) (hsub kv0 kv hf)

theorem StoreWF_purgeEntries {s : TTDBTable} {c : Nat} (hwf : StoreWF s c)
    (t now : Nat) : StoreWF (s.purgeEntries t now) c := by
  unfold TTDBTable.purgeEntries
  split
  · exact hwf
  · exact ⟨DictWF_filterMap_purge (purgeTableBucket_key t)
      (fun kv r hh => purgeTableBucket_sublist hh) hwf.1,
    DictWF_filterMap_purge (purgeIndexBucket_key t)
      (fun kv r hh => purgeIndexBucket_sublist hh) hwf.2⟩

theorem purgeEntries_autopurge (s : TTDBTable) (t now : Nat) :
    (s.purgeEntries t now).autopurge = s.autopurge := by
  unfold TTDBTable.purgeEntries
  split <;> rfl

theorem DictWF_nil [DecidableEq κ] (c : Nat) : DictWF c ([] : Dict κ α) :=
  ⟨List.nodup_nil, fun kv hkv => absurd hkv (List.not_mem_nil kv),
    fun kv hkv => absurd hkv (List.not_mem_nil kv)⟩

theorem RootReach_wf {s : TTDBTable} {c : Nat} (h : RootReach s c) :
    StoreWF s c ∧ s.autopurge = false := by
  induction h with
  | init pp n0 => exact ⟨⟨DictWF_nil 0, DictWF_nil 0⟩, rfl⟩
  | write s c k v t h hf ih =>
    refine ⟨StoreWF_writeValueRoot ih.2 ih.1 hf k v, ?_⟩
    rw [writeValueRoot_autopurge]
    exact ih.2
  | readV s c k t h ih =>
    refine ⟨StoreWF_readValueRootSt ih.1 k t, ?_⟩
    rw [readValueRootSt_snd]
    exact ih.2
  | readI s c v t h ih =>
    refine ⟨StoreWF_readIndexRootSt ih.1 v t, ?_⟩
    rw [readIndexRootSt_snd]
    exact ih.2
  | commit s c T scopes h hT hs ih =>
    exact commitChain_wf_aux scopes.length scopes s c T (le_refl _)
      ih.2 ih.1 hT hs
  | purge s c t now h ih =>
    refine ⟨StoreWF_purgeEntries ih.1 t now, ?_⟩
    rw [purgeEntries_autopurge]
    exact ih.2
  | reset s c pp n0 h ih => exact ⟨⟨DictWF_nil c, DictWF_nil c⟩, rfl⟩

/-- C7: in every root store reachable by engine operations — direct writes,
reads, commits of scope-shaped transactions, purges and resets, under the
strict-monotonicity side conditions on minted timestamps that `RootReach`
carries (`c < t` for a direct write, `c < T` for a committing transaction;
ties are not permitted) — the entries of every bucket of the table and of the
index are strictly ascending in write stamp. -/
theorem ttdb_C7_strictly_ascending_stamps (s : TTDBTable) (c : Nat)
    (h : RootReach s c) :
    (∀ kv ∈ s.table, EntriesSorted kv.2.entries) ∧
    (∀ kv ∈ s.index, EntriesSorted kv.2.entries) := by
  obtain ⟨⟨hwt, hwi⟩, _⟩ := RootReach_wf h
  exact ⟨hwt.2.1, hwi.2.1⟩

theorem ttdb_C7_strictly_ascending_stamps_witness :
    (∀ kv ∈ (((mkTable false 0 0).writeValueRoot "a" (some "1") 1).writeValueRoot
        "a" (some "2") 2).table, EntriesSorted kv.2.entries) ∧
    (∀ kv ∈ (((mkTable false 0 0).writeValueRoot "a" (some "1") 1).writeValueRoot
        "a" (some "2") 2).index, EntriesSorted kv.2.entries) :=
  ttdb_C7_strictly_ascending_stamps _ 2
    (RootReach.write _ 1 "a" (some "2") 2
      (RootReach.write _ 0 "a" (some "1") 1 (RootReach.init 0 0) (by decide))
      (by decide))
